import Mathlib

/-!
Shallow embedding of the Texas Hold'em rules engine in
`src/game/PokerEngine.ts` (class `PokerEngine`) of the HomeGame repository,
together with proofs about its betting, pot and dealing logic.

Conventions used throughout:
* chip amounts are rationals (`ℚ`): the TypeScript code computes on
  JavaScript numbers and the properties are settled assuming exact
  arithmetic;
* mutation through object references is re-expressed as functional update
  of the `players` list at explicit indices;
* the `pokersolver` hand evaluator is an external library, so functions
  that need it take an evaluation function `EvalFn` as a parameter;
* `Math.random()`-driven shuffling takes an arbitrary function
  `rng : Nat → Nat`, reduced modulo the relevant bound exactly where the
  code computes `Math.floor(Math.random() * (i + 1))`.
-/

namespace HomeGame

/-- A playing card (`Card` interface): rank `'2'..'9','T','J','Q','K','A'`,
suit `'h','d','c','s'`. -/
structure Card where
  rank : String
  suit : String
deriving DecidableEq, Repr

/-- A seated player (`Player` interface). -/
structure Player where
  id : String
  username : String
  seatPosition : Int
  chips : ℚ
  cards : List Card
  currentBet : ℚ
  folded : Bool
  allIn : Bool
  isDealer : Bool
  isSmallBlind : Bool
  isBigBlind : Bool
  hasActed : Bool
deriving DecidableEq, Repr

/-- A side pot (`SidePot` interface). -/
structure SidePot where
  amount : ℚ
  eligiblePlayers : List String
deriving DecidableEq, Repr

/-- The game phase strings of `GameState.phase`. -/
inductive Phase
  | waiting | preflop | flop | turn | river | showdown | ended
deriving DecidableEq, Repr

/-- The authoritative game state (`GameState` interface). -/
structure GameState where
  id : String
  players : List Player
  communityCards : List Card
  pot : ℚ
  sidePots : List SidePot
  currentBet : ℚ
  dealerPosition : Nat
  currentPlayerIndex : Nat
  phase : Phase
  smallBlind : ℚ
  bigBlind : ℚ
  handNumber : Nat
deriving DecidableEq, Repr

/-- The `PokerEngine` instance state: the private `deck` field plus the
game state. -/
structure Engine where
  deck : List Card
  gameState : GameState
deriving DecidableEq, Repr

/-- Placeholder player used as the default for out-of-range list reads
(which never happen on the indices the engine produces). -/
def defPlayer : Player :=
  { id := "", username := "", seatPosition := 0, chips := 0, cards := [],
    currentBet := 0, folded := false, allIn := false, isDealer := false,
    isSmallBlind := false, isBigBlind := false, hasActed := false }

/-- Placeholder card used as the default for out-of-range list reads. -/
def defCard : Card := { rank := "2", suit := "h" }

/-- Indices into `gs.players` of the players returned by
`getActivePlayers()`: those with `chips > 0 || currentBet > 0`. -/
def activeIdx (gs : GameState) : List Nat :=
  (List.range gs.players.length).filter fun i =>
    let p := gs.players.getD i defPlayer
    decide (0 < p.chips) || decide (0 < p.currentBet)

/-- Indices of `getActivePlayers().filter(p => !p.folded)`, the non-folded
active players used by `determineWinner` and `calculatePots`. -/
def activeNonfoldedIdx (gs : GameState) : List Nat :=
  (activeIdx gs).filter fun i => !(gs.players.getD i defPlayer).folded

/-- The loop of `calculatePots` over the ascending `playerBets` list:
returns the pushed side pots and the remaining pot. -/
def potsGo : List (String × ℚ) → ℚ → ℚ → List SidePot × ℚ
  | [], _, remaining => ([], remaining)
  | pb :: rest, previousBet, remaining =>
    let currentBet := pb.2
    let betDiff := currentBet - previousBet
    if 0 < betDiff then
      let eligiblePlayers := (pb :: rest).map (·.1)
      let potAmount := betDiff * (eligiblePlayers.length : ℚ)
      if 0 < potAmount then
        let r := potsGo rest currentBet (remaining - potAmount)
        (⟨potAmount, eligiblePlayers⟩ :: r.1, r.2)
      else potsGo rest currentBet remaining
    else potsGo rest currentBet remaining

/-- The comparison of `calculatePots`'s `.sort((a, b) => a.bet - b.bet)`:
ascending by bet. -/
def betLe (a b : String × ℚ) : Prop := a.2 ≤ b.2

instance : DecidableRel betLe := fun a b => inferInstanceAs (Decidable (a.2 ≤ b.2))

instance : IsTotal (String × ℚ) betLe := ⟨fun a b => le_total a.2 b.2⟩

instance : IsTrans (String × ℚ) betLe := ⟨fun _ _ _ h h2 => le_trans h h2⟩

/-- The sorted `playerBets` array of `calculatePots`: the non-folded active
players' `(id, currentBet)` pairs, sorted ascending by bet.  JavaScript
`Array.sort` is a stable sort and `List.insertionSort` is also stable, so
the latter embeds the former exactly. -/
def playerBets (gs : GameState) : List (String × ℚ) :=
  ((activeNonfoldedIdx gs).map fun i =>
      ((gs.players.getD i defPlayer).id,
       (gs.players.getD i defPlayer).currentBet)).insertionSort betLe

/-- `calculatePots()`: the side pots and the main (remaining) pot. -/
def calculatePots (gs : GameState) : List SidePot × ℚ :=
  potsGo (playerBets gs) 0 gs.pot

/-- The type of the external hand evaluator (`pokersolver`-backed
`evaluateHands`): from the game state and the indices of the contending
players, the indices of the players holding the winning hands. -/
def EvalFn : Type := GameState → List Nat → List Nat

/-- Credit chips to the player at index `i` (the TypeScript
`winner.chips += potShare` through an object reference). -/
def addChips (ps : List Player) (i : Nat) (amt : ℚ) : List Player :=
  ps.set i { ps.getD i defPlayer with chips := (ps.getD i defPlayer).chips + amt }

/-- Award one side pot: filter the eligible contenders, ask the evaluator
for the winners, and credit each with an even share. -/
def awardPot (ev : EvalFn) (aIdx : List Nat) (g : GameState) (sp : SidePot) : GameState :=
  let eligible := aIdx.filter fun i =>
    sp.eligiblePlayers.contains (g.players.getD i defPlayer).id
  let potWinners := ev g eligible
  let potShare := sp.amount / (potWinners.length : ℚ)
  { g with players :=
      potWinners.foldl (fun ps i => addChips ps i potShare) g.players }

/-- `determineWinner()`: pay the whole pot to a lone non-folded player, or
split side pots and main pot among the evaluator's winners. -/
def determineWinner (ev : EvalFn) (gs : GameState) : GameState :=
  let aIdx := activeNonfoldedIdx gs
  if aIdx.length == 1 then
    { gs with players := addChips gs.players (aIdx.getD 0 0) gs.pot }
  else
    let r := calculatePots gs
    let gs1 := r.1.foldl (awardPot ev aIdx) gs
    if 0 < r.2 then
      let potWinners := ev gs1 aIdx
      let potShare := r.2 / (potWinners.length : ℚ)
      { gs1 with players :=
          potWinners.foldl (fun ps i => addChips ps i potShare) gs1.players }
    else gs1

/-- Indices of `getActivePlayers().filter(p => !p.folded && !p.allIn)` as
used by `setNextPlayer` to detect the everyone-is-all-in fast path. -/
def eligibleIdx (gs : GameState) : List Nat :=
  (activeIdx gs).filter fun i =>
    let p := gs.players.getD i defPlayer
    !p.folded && !p.allIn

/-- The seat indices scanned by `setNextPlayer`'s while loop, in order:
`currentPlayerIndex + 1, currentPlayerIndex + 2, ...` wrapping, for
`players.length` steps. -/
def nextCandidates (gs : GameState) : List Nat :=
  (List.range gs.players.length).map fun k =>
    (gs.currentPlayerIndex + 1 + k) % gs.players.length

/-- The loop guard of `setNextPlayer`: not folded, not all-in, chips left. -/
def canActAt (gs : GameState) (j : Nat) : Bool :=
  let p := gs.players.getD j defPlayer
  !p.folded && !p.allIn && decide (0 < p.chips)

/-- `setNextPlayer()`: force showdown when no eligible player remains,
otherwise scan the seats after the current one (wrapping) for the first
player that is not folded, not all-in and has chips. -/
def setNextPlayer (ev : EvalFn) (gs : GameState) : GameState :=
  if (eligibleIdx gs).length == 0 then
    determineWinner ev { gs with phase := .showdown }
  else
    match (nextCandidates gs).find? (canActAt gs) with
    | some j => { gs with currentPlayerIndex := j }
    | none => gs

/-- First index of a player with the given id (`getPlayer`, which uses
`Array.find`). -/
def getPlayerIdx (gs : GameState) (playerId : String) : Option Nat :=
  gs.players.findIdx? fun p => p.id == playerId

/-- `fold(playerId)`. -/
def fold (playerId : String) (gs : GameState) : Bool × GameState :=
  match getPlayerIdx gs playerId with
  | none => (false, gs)
  | some i =>
    let p := gs.players.getD i defPlayer
    if p.folded then (false, gs)
    else
      let p1 := { p with folded := true, hasActed := true }
      (true, { gs with players := gs.players.set i p1 })

/-- `call(playerId)`. -/
def call (playerId : String) (gs : GameState) : Bool × GameState :=
  match getPlayerIdx gs playerId with
  | none => (false, gs)
  | some i =>
    let p := gs.players.getD i defPlayer
    if p.folded then (false, gs)
    else
      let callAmount := gs.currentBet - p.currentBet
      let actualAmount := min callAmount p.chips
      let p1 :=
        { p with
          chips := p.chips - actualAmount
          currentBet := p.currentBet + actualAmount
          hasActed := true }
      let p2 := if p1.chips = 0 then { p1 with allIn := true } else p1
      (true, { gs with players := gs.players.set i p2, pot := gs.pot + actualAmount })

/-- The amount a raise moves:
`min(totalBet - player.currentBet, player.chips)` where
`totalBet = gameState.currentBet + raiseAmount`. -/
def raiseActual (gs : GameState) (raiseAmount : ℚ) (p : Player) : ℚ :=
  let totalBet := gs.currentBet + raiseAmount
  let amountToAdd := totalBet - p.currentBet
  min amountToAdd p.chips

/-- The raiser after the stack/bet mutations of `raise`. -/
def raisedPlayer (gs : GameState) (raiseAmount : ℚ) (p : Player) : Player :=
  { p with
    chips := p.chips - raiseActual gs raiseAmount p
    currentBet := p.currentBet + raiseActual gs raiseAmount p
    hasActed := true }

/-- The forEach of `raise` that clears `hasActed` for every other
non-folded, non-all-in player. -/
def resetOthers (playerId : String) (ps : List Player) : List Player :=
  ps.map fun q =>
    if q.id != playerId && !q.folded && !q.allIn then { q with hasActed := false }
    else q

/-- `raise(playerId, raiseAmount)`. -/
def raise (playerId : String) (raiseAmount : ℚ) (gs : GameState) : Bool × GameState :=
  match getPlayerIdx gs playerId with
  | none => (false, gs)
  | some i =>
    let p := gs.players.getD i defPlayer
    if p.folded then (false, gs)
    else
      let p1 := raisedPlayer gs raiseAmount p
      let ps2 := resetOthers playerId (gs.players.set i p1)
      let ps3 :=
        if p1.chips = 0 then ps2.set i { ps2.getD i defPlayer with allIn := true }
        else ps2
      (true,
        { gs with
          players := ps3
          pot := gs.pot + raiseActual gs raiseAmount p
          currentBet := p1.currentBet })

/-- `check(playerId)`. -/
def check (playerId : String) (gs : GameState) : Bool × GameState :=
  match getPlayerIdx gs playerId with
  | none => (false, gs)
  | some i =>
    let p := gs.players.getD i defPlayer
    if p.folded then (false, gs)
    else if p.currentBet ≠ gs.currentBet then (false, gs)
    else
      (true, { gs with players := gs.players.set i { p with hasActed := true } })

/-- `isBettingRoundComplete()`. -/
def isBettingRoundComplete (gs : GameState) : Bool :=
  let activePlayers := (gs.players.filter fun p =>
      decide (0 < p.chips) || decide (0 < p.currentBet)).filter fun p => !p.folded
  if activePlayers.length ≤ 1 then true
  else
    let playersWhoCanAct := activePlayers.filter fun p => !p.allIn
    if playersWhoCanAct.length == 0 then true
    else playersWhoCanAct.all fun p => p.hasActed && decide (p.currentBet = gs.currentBet)

/-- `rotateDealer()`: advance the dealer position and mark dealer, small
blind and big blind among the active players. -/
def rotateDealer (gs : GameState) : GameState :=
  let aIdx := activeIdx gs
  if aIdx.length < 2 then gs
  else
    let dealerPosition := (gs.dealerPosition + 1) % aIdx.length
    let di := aIdx.getD dealerPosition 0
    let ps1 := gs.players.set di { gs.players.getD di defPlayer with isDealer := true }
    let sbIndex := (dealerPosition + 1) % aIdx.length
    let bbIndex := (dealerPosition + 2) % aIdx.length
    let si := aIdx.getD sbIndex 0
    let ps2 := ps1.set si { ps1.getD si defPlayer with isSmallBlind := true }
    let bi := aIdx.getD bbIndex 0
    let ps3 := ps2.set bi { ps2.getD bi defPlayer with isBigBlind := true }
    { gs with players := ps3, dealerPosition := dealerPosition }

/-- Posting one blind of size `b` from seat `i`: deduct `min(b, chips)`,
record it as the seat's bet, add it to the pot, flag all-in on a zeroed
stack. -/
def postBlindAt (gs : GameState) (i : Nat) (b : ℚ) : GameState :=
  let p := gs.players.getD i defPlayer
  let amt := min b p.chips
  let p1 := { p with chips := p.chips - amt, currentBet := amt }
  let p2 := if p1.chips = 0 then { p1 with allIn := true } else p1
  { gs with players := gs.players.set i p2, pot := gs.pot + amt }

/-- `postBlinds()`: deduct the small and big blinds (capped at the payer's
stack), add them to the pot, and set the bet to match to the big blind. -/
def postBlinds (gs : GameState) : GameState :=
  let aIdx := activeIdx gs
  let gs1 :=
    match aIdx.find? (fun i => (gs.players.getD i defPlayer).isSmallBlind) with
    | some i => postBlindAt gs i gs.smallBlind
    | none => gs
  match aIdx.find? (fun i => (gs1.players.getD i defPlayer).isBigBlind) with
  | some i =>
    { postBlindAt gs1 i gs1.bigBlind with
      currentBet := min gs1.bigBlind (gs1.players.getD i defPlayer).chips }
  | none => gs1

/-- The rank strings of `createDeck`. -/
def ranks : List String :=
  ["2", "3", "4", "5", "6", "7", "8", "9", "T", "J", "Q", "K", "A"]

/-- The suit strings of `createDeck`. -/
def suits : List String := ["h", "d", "c", "s"]

/-- The freshly pushed 52-card deck before shuffling: outer loop over
suits, inner loop over ranks. -/
def freshDeck : List Card :=
  (suits.map fun suit => ranks.map fun rank => { rank, suit : Card }).flatten

/-- Swap two positions of the deck (the destructuring assignment
`[deck[i], deck[j]] = [deck[j], deck[i]]`). -/
def swapCards (l : List Card) (i j : Nat) : List Card :=
  let a := l.getD i defCard
  let b := l.getD j defCard
  (l.set i b).set j a

/-- The Fisher-Yates loop of `createDeck`: for `i` from `length - 1` down
to 1, swap index `i` with `Math.floor(Math.random() * (i + 1))`, an
arbitrary index in `[0, i]`; `rng i % (i + 1)` ranges over exactly those
outcomes as `rng` ranges over all functions. -/
def fyGo (rng : Nat → Nat) : Nat → List Card → List Card
  | 0, l => l
  | i + 1, l => fyGo rng i (swapCards l (i + 1) (rng (i + 1) % (i + 2)))

/-- `createDeck()`: a fresh shuffled 52-card deck. -/
def createDeck (rng : Nat → Nat) : List Card :=
  fyGo rng (freshDeck.length - 1) freshDeck

/-- `deck.pop()`: remove and return the last element. -/
def popCard (deck : List Card) : Option Card × List Card :=
  (deck.getLast?, deck.dropLast)

/-- One dealing step of `dealHoleCards`: give the top card to the player
at index `i` unless the player has folded (the `pop()!` on an empty deck,
which cannot happen from a fresh 52-card deck, is modelled as a skip). -/
def dealStep (st : List Card × List Player) (i : Nat) : List Card × List Player :=
  let p := st.2.getD i defPlayer
  if !p.folded then
    match popCard st.1 with
    | (some c, deck1) => (deck1, st.2.set i { p with cards := p.cards ++ [c] })
    | (none, deck1) => (deck1, st.2)
  else st

/-- `dealHoleCards()`: create a fresh deck and deal two rounds of one card
each to the active players. -/
def dealHoleCards (rng : Nat → Nat) (e : Engine) : Engine :=
  let gs := e.gameState
  let aIdx := activeIdx gs
  let st1 := aIdx.foldl dealStep (createDeck rng, gs.players)
  let st2 := aIdx.foldl dealStep st1
  { deck := st2.1, gameState := { gs with players := st2.2 } }

/-- One iteration of the `dealCommunityCards` loop: pop the top card onto
the board when the deck is non-empty. -/
def dealOneCommunity (e1 : Engine) : Engine :=
  if 0 < e1.deck.length then
    match popCard e1.deck with
    | (some c, deck1) =>
      { deck := deck1
        gameState :=
          { e1.gameState with
            communityCards := e1.gameState.communityCards ++ [c] } }
    | (none, deck1) => { e1 with deck := deck1 }
  else e1

/-- `dealCommunityCards(count)`. -/
def dealCommunityCards (count : Nat) (e : Engine) : Engine :=
  (List.range count).foldl (fun e1 _ => dealOneCommunity e1) e

/-- The per-hand reset at the top of `startNewHand()`. -/
def resetForHand (gs : GameState) : GameState :=
  { gs with
    handNumber := gs.handNumber + 1
    phase := .preflop
    pot := 0
    sidePots := []
    currentBet := 0
    communityCards := []
    players := gs.players.map fun p =>
      { p with
        cards := []
        currentBet := 0
        folded := false
        allIn := false
        hasActed := false
        isDealer := false
        isSmallBlind := false
        isBigBlind := false } }

/-- `startNewHand()` up to (and including) the dealing of hole cards:
reset, rotate dealer, post blinds, deal. -/
def startPre (rng : Nat → Nat) (e : Engine) : Engine :=
  dealHoleCards rng { e with gameState := postBlinds (rotateDealer (resetForHand e.gameState)) }

/-- `startNewHand()`: `startPre` followed by the final `setNextPlayer()`. -/
def startNewHand (rng : Nat → Nat) (ev : EvalFn) (e : Engine) : Engine :=
  let e1 := startPre rng e
  { e1 with gameState := setNextPlayer ev e1.gameState }

/-- The reset of every player's round bet and `hasActed` flag at the top
of `advancePhase`, together with the table bet reset. -/
def resetRound (gs : GameState) : GameState :=
  { gs with
    players := gs.players.map fun p => { p with currentBet := 0, hasActed := false }
    currentBet := 0 }

/-- `advancePhase()`: reset the round bets, move to the next phase (dealing
community cards, or resolving the showdown after the river), then pick the
next player to act. -/
def advancePhase (ev : EvalFn) (e : Engine) : Engine :=
  let gs1 := resetRound e.gameState
  let e2 :=
    match gs1.phase with
    | .preflop => dealCommunityCards 3 { e with gameState := { gs1 with phase := .flop } }
    | .flop => dealCommunityCards 1 { e with gameState := { gs1 with phase := .turn } }
    | .turn => dealCommunityCards 1 { e with gameState := { gs1 with phase := .river } }
    | .river => { e with gameState := determineWinner ev { gs1 with phase := .showdown } }
    | _ => { e with gameState := gs1 }
  { e2 with gameState := setNextPlayer ev e2.gameState }

/-- The roster comparison of `addPlayer`'s
`.sort((a, b) => a.seatPosition - b.seatPosition)`. -/
def seatLe (a b : Player) : Prop := a.seatPosition ≤ b.seatPosition

instance : DecidableRel seatLe := fun a b =>
  inferInstanceAs (Decidable (a.seatPosition ≤ b.seatPosition))

instance : IsTotal Player seatLe := ⟨fun a b => le_total a.seatPosition b.seatPosition⟩

instance : IsTrans Player seatLe := ⟨fun _ _ _ h h2 => le_trans h h2⟩

/-- The fresh `Player` record built by `addPlayer`. -/
def mkPlayer (id username : String) (seatPosition : Int) (chips : ℚ) : Player :=
  { id, username, seatPosition, chips
    cards := []
    currentBet := 0
    folded := false
    allIn := false
    isDealer := false
    isSmallBlind := false
    isBigBlind := false
    hasActed := false }

/-- `addPlayer(id, username, seatPosition, chips)`: push the new player
and keep the roster sorted by seat position (stable sort). -/
def addPlayer (id username : String) (seatPosition : Int) (chips : ℚ) (e : Engine) : Engine :=
  { e with gameState :=
    { e.gameState with
      players := (e.gameState.players ++
        [mkPlayer id username seatPosition chips]).insertionSort seatLe } }

/-- The `PokerEngine` constructor. -/
def newEngine (gameId : String) (smallBlind bigBlind : ℚ) : Engine :=
  { deck := []
    gameState :=
    { id := gameId
      players := []
      communityCards := []
      pot := 0
      sidePots := []
      currentBet := 0
      dealerPosition := 0
      currentPlayerIndex := 0
      phase := .waiting
      smallBlind, bigBlind
      handNumber := 0 } }

/-- `getCurrentPlayer()`. -/
def getCurrentPlayer (gs : GameState) : Option Player :=
  gs.players.get? gs.currentPlayerIndex

/-- The raise amount the host controller uses for the `all-in` action
(`GameHostController.handlePlayerAction`, README):
`player.chips + player.currentBet - gameState.currentBet`. -/
def hostAllInAmount (gs : GameState) (p : Player) : ℚ :=
  p.chips + p.currentBet - gs.currentBet

/-- Scenario for the side-pot claim: three non-folded players A, B, C whose
contributions this hand are 100, 100 and 50 (C all-in at 50); the pot
accumulated this hand is 250. -/
def sidePotScenario : GameState :=
  { id := "g",
    players :=
      [{ defPlayer with id := "A", currentBet := 100, chips := 400 },
       { defPlayer with id := "B", currentBet := 100, chips := 400 },
       { defPlayer with id := "C", currentBet := 50, chips := 0, allIn := true }],
    communityCards := [], pot := 250, sidePots := [], currentBet := 100,
    dealerPosition := 0, currentPlayerIndex := 0, phase := .river,
    smallBlind := 10, bigBlind := 20, handNumber := 1 }

/-- A hand evaluator usable for concrete runs: the first contender wins. -/
def takeOneEval : EvalFn := fun _ l => l.take 1

/-- A concrete shuffle outcome: every Fisher-Yates draw picks index 0. -/
def zeroRng : Nat → Nat := fun _ => 0

/-- The heads-up scenario table: players A (seat 0) and B (seat 1), each
with stack 1000, blinds 10/20. -/
def headsUpEngine : Engine :=
  addPlayer "B" "b" 1 1000 (addPlayer "A" "a" 0 1000 (newEngine "g" 10 20))

/-- The heads-up scenario right after `startNewHand()`. -/
def headsUpStart : Engine := startNewHand zeroRng takeOneEval headsUpEngine

/-- C2 (code bug): heads-up, stacks 1000/1000, blinds 10/20.  After
`startNewHand()` the pot is 30, the bet to match is 20, and the seat on
move is the dealer seat (index 1) — but `rotateDealer` marks the dealer
seat as the BIG blind (`dealer+1` becomes small blind and `dealer+2`,
which wraps back to the dealer with 2 players, becomes big blind), so the
dealer seat is NOT the small-blind seat as the heads-up rule demands. -/
theorem headsUp_blind_posting :
    (headsUpStart.gameState.pot = 30) ∧
    (headsUpStart.gameState.currentBet = 20) ∧
    (headsUpStart.gameState.dealerPosition = 1) ∧
    ((headsUpStart.gameState.players.getD 1 defPlayer).isDealer = true) ∧
    ((headsUpStart.gameState.players.getD 0 defPlayer).isDealer = false) ∧
    (headsUpStart.gameState.currentPlayerIndex = 1) ∧
    ((headsUpStart.gameState.players.getD 1 defPlayer).isSmallBlind = false) ∧
    ((headsUpStart.gameState.players.getD 1 defPlayer).isBigBlind = true) ∧
    ((headsUpStart.gameState.players.getD 0 defPlayer).isSmallBlind = true) := by
  with_unfolding_all decide


section ListHelpers

variable {α : Type u1} {β : Type u2}

/-- Reading back the written position of `List.set`. -/
theorem getD_set_self (l : List α) (i : Nat) (a d : α) (h : i < l.length) :
    (l.set i a).getD i d = a := by
  simp [List.getD_eq_getElem?_getD, List.getElem?_set_self (l := l) (by simpa using h)]

/-- Reading another position of `List.set`. -/
theorem getD_set_ne (l : List α) (i j : Nat) (a d : α) (h : i ≠ j) :
    (l.set i a).getD j d = l.getD j d := by
  simp [List.getD_eq_getElem?_getD, List.getElem?_set_ne h]

/-- Reading a mapped list within bounds. -/
theorem getD_map_of_lt (f : α → β) (l : List α) (j : Nat) (d : α) (d2 : β)
    (h : j < l.length) :
    (l.map f).getD j d2 = f (l.getD j d) := by
  simp [List.getD_eq_getElem?_getD, List.getElem?_eq_getElem h]

end ListHelpers

section RaiseLemmas

/-- `resetOthers` keeps the roster length. -/
theorem length_resetOthers (pid : String) (ps : List Player) :
    (resetOthers pid ps).length = ps.length := by
  simp [resetOthers]

/-- `resetOthers` leaves the raiser (a player carrying the raiser's id)
unchanged. -/
theorem resetOthers_getD_raiser (pid : String) (ps : List Player) (i : Nat)
    (hi : i < ps.length) (hid : (ps.getD i defPlayer).id = pid) :
    (resetOthers pid ps).getD i defPlayer = ps.getD i defPlayer := by
  rw [resetOthers, getD_map_of_lt _ _ _ defPlayer _ hi, hid]
  simp

/-- `resetOthers` pointwise. -/
theorem resetOthers_getD (pid : String) (ps : List Player) (j : Nat)
    (hj : j < ps.length) :
    (resetOthers pid ps).getD j defPlayer =
      (if (ps.getD j defPlayer).id != pid && !(ps.getD j defPlayer).folded &&
          !(ps.getD j defPlayer).allIn
        then { ps.getD j defPlayer with hasActed := false }
        else ps.getD j defPlayer) := by
  rw [resetOthers, getD_map_of_lt _ _ _ defPlayer _ hj]

/-- A successful `raise` fails only on an unknown id or a folded player. -/
theorem raise_success_inv (gs : GameState) (pid : String) (amt : ℚ)
    (hok : (raise pid amt gs).1 = true) :
    ∃ i, getPlayerIdx gs pid = some i ∧ (gs.players.getD i defPlayer).folded = false := by
  cases hfi : getPlayerIdx gs pid with
  | none => rw [raise, hfi] at hok; exact (Bool.false_ne_true hok).elim
  | some i =>
    refine ⟨i, rfl, ?_⟩
    by_cases hnf : (gs.players.getD i defPlayer).folded
    · rw [raise, hfi] at hok
      dsimp only at hok
      rw [if_pos hnf] at hok
      exact (Bool.false_ne_true hok).elim
    · simpa using hnf

/-- The result of a successful `raise`, spelled out. -/
theorem raise_success_eq (gs : GameState) (pid : String) (amt : ℚ) (i : Nat)
    (hfind : getPlayerIdx gs pid = some i)
    (hnf : (gs.players.getD i defPlayer).folded = false) :
    raise pid amt gs =
      (true,
        { gs with
          players :=
            if (raisedPlayer gs amt (gs.players.getD i defPlayer)).chips = 0 then
              (resetOthers pid
                (gs.players.set i (raisedPlayer gs amt (gs.players.getD i defPlayer)))).set i
                { (resetOthers pid
                    (gs.players.set i
                      (raisedPlayer gs amt (gs.players.getD i defPlayer)))).getD i defPlayer with
                  allIn := true }
            else
              resetOthers pid
                (gs.players.set i (raisedPlayer gs amt (gs.players.getD i defPlayer)))
          pot := gs.pot + raiseActual gs amt (gs.players.getD i defPlayer)
          currentBet := (raisedPlayer gs amt (gs.players.getD i defPlayer)).currentBet }) := by
  rw [raise, hfind]
  dsimp only
  rw [if_neg (by rw [hnf]; exact Bool.false_ne_true)]

/-- `raise` does not change the number of seated players. -/
theorem length_players_raise (pid : String) (amt : ℚ) (gs : GameState) :
    (raise pid amt gs).2.players.length = gs.players.length := by
  cases hfi : getPlayerIdx gs pid with
  | none => rw [raise, hfi]
  | some i =>
    by_cases hnf : (gs.players.getD i defPlayer).folded
    · rw [raise, hfi]
      dsimp only
      rw [if_pos hnf]
    · rw [raise_success_eq gs pid amt i hfi (by simpa using hnf)]
      dsimp only
      split <;> simp [length_resetOthers]

/-- The raiser's index stays in range. -/
theorem getPlayerIdx_lt (gs : GameState) (pid : String) (i : Nat)
    (hfind : getPlayerIdx gs pid = some i) : i < gs.players.length :=
  (List.findIdx?_eq_some_iff_getElem.mp hfind).1

/-- The player `getPlayerIdx` finds carries the id it was asked for. -/
theorem getPlayerIdx_id (gs : GameState) (pid : String) (i : Nat)
    (hfind : getPlayerIdx gs pid = some i) :
    (gs.players.getD i defPlayer).id = pid := by
  obtain ⟨hi, hpred, -⟩ := List.findIdx?_eq_some_iff_getElem.mp hfind
  have hgetD : gs.players.getD i defPlayer = gs.players[i] := by
    simp [List.getD_eq_getElem?_getD, List.getElem?_eq_getElem hi]
  rw [hgetD]
  exact beq_iff_eq.mp (by simpa using hpred)

/-- The raiser's seat after a successful `raise`: the mutated player, with
the all-in flag forced when the stack reached 0. -/
theorem raise_players_getD_self (gs : GameState) (pid : String) (amt : ℚ) (i : Nat)
    (hfind : getPlayerIdx gs pid = some i)
    (hnf : (gs.players.getD i defPlayer).folded = false) :
    (raise pid amt gs).2.players.getD i defPlayer =
      (if (raisedPlayer gs amt (gs.players.getD i defPlayer)).chips = 0
        then { raisedPlayer gs amt (gs.players.getD i defPlayer) with allIn := true }
        else raisedPlayer gs amt (gs.players.getD i defPlayer)) := by
  have hi : i < gs.players.length := getPlayerIdx_lt gs pid i hfind
  have hid : (gs.players.getD i defPlayer).id = pid := getPlayerIdx_id gs pid i hfind
  have hset : (gs.players.set i (raisedPlayer gs amt (gs.players.getD i defPlayer))).getD
      i defPlayer = raisedPlayer gs amt (gs.players.getD i defPlayer) :=
    getD_set_self _ _ _ _ (by simpa using hi)
  have hro : (resetOthers pid
      (gs.players.set i (raisedPlayer gs amt (gs.players.getD i defPlayer)))).getD
        i defPlayer = raisedPlayer gs amt (gs.players.getD i defPlayer) := by
    rw [resetOthers_getD_raiser pid _ i (by simpa using hi)
      (by rw [hset]; exact hid), hset]
  rw [raise_success_eq gs pid amt i hfind hnf]
  dsimp only
  by_cases hz : (raisedPlayer gs amt (gs.players.getD i defPlayer)).chips = 0
  · rw [if_pos hz, if_pos hz,
      getD_set_self _ _ _ _ (by simpa [length_resetOthers] using hi), hro]
  · rw [if_neg hz, if_neg hz, hro]

/-- Any other seat after a successful `raise`: untouched except for the
`hasActed` reset of non-folded, non-all-in players. -/
theorem raise_players_getD_other (gs : GameState) (pid : String) (amt : ℚ) (i : Nat)
    (hfind : getPlayerIdx gs pid = some i)
    (hnf : (gs.players.getD i defPlayer).folded = false)
    (j : Nat) (hij : j ≠ i) :
    (raise pid amt gs).2.players.getD j defPlayer =
      (if (gs.players.getD j defPlayer).id != pid &&
          !(gs.players.getD j defPlayer).folded &&
          !(gs.players.getD j defPlayer).allIn
        then { gs.players.getD j defPlayer with hasActed := false }
        else gs.players.getD j defPlayer) := by
  rw [raise_success_eq gs pid amt i hfind hnf]
  dsimp only
  by_cases hj : j < gs.players.length
  · have hgs : (gs.players.set i
        (raisedPlayer gs amt (gs.players.getD i defPlayer))).getD j defPlayer =
        gs.players.getD j defPlayer :=
      getD_set_ne _ _ _ _ _ (fun h => hij h.symm)
    have hro : (resetOthers pid
        (gs.players.set i (raisedPlayer gs amt (gs.players.getD i defPlayer)))).getD
          j defPlayer =
        (if (gs.players.getD j defPlayer).id != pid &&
            !(gs.players.getD j defPlayer).folded &&
            !(gs.players.getD j defPlayer).allIn
          then { gs.players.getD j defPlayer with hasActed := false }
          else gs.players.getD j defPlayer) := by
      rw [resetOthers_getD pid _ j (by simpa using hj), hgs]
    split
    · rw [getD_set_ne _ _ _ _ _ (fun h => hij h.symm), hro]
    · rw [hro]
  · have hj2 : gs.players.length ≤ j := Nat.le_of_not_lt hj
    have hout : ∀ (l : List Player), l.length = gs.players.length →
        l.getD j defPlayer = defPlayer := by
      intro l hl
      simp [List.getD_eq_getElem?_getD, List.getElem?_eq_none (by omega : l.length ≤ j)]
    have hgsj : gs.players.getD j defPlayer = defPlayer := hout gs.players rfl
    rw [hgsj]
    split
    · rw [hout _ (by simp [length_resetOthers])]
      simp [defPlayer]
    · rw [hout _ (by simp [length_resetOthers])]
      simp [defPlayer]

end RaiseLemmas

/-- Witness table for the raise-semantics claim: A (500 chips) and
B (80 chips), no live bet. -/
def raiseWitnessGs : GameState :=
  { id := "g",
    players :=
      [{ defPlayer with id := "A", chips := 500 },
       { defPlayer with id := "B", chips := 80 }],
    communityCards := [], pot := 0, sidePots := [], currentBet := 0,
    dealerPosition := 0, currentPlayerIndex := 0, phase := .preflop,
    smallBlind := 10, bigBlind := 20, handNumber := 1 }

/-- C4: for a seated, non-folded player with chips remaining,
`raise(id, amount)` succeeds and moves
`min(currentBet + amount - contribution, chips)` chips from the raiser's
stack to the pot — i.e. the additional amount over the previous bet to
match, capped at the raiser's stack; when the stack covers it, the new bet
to match is exactly `currentBet + amount`; when the cap applies, the stack
reaches 0 and the raiser is flagged all-in. -/
theorem raise_amount_semantics (gs : GameState) (pid : String) (amt : ℚ) (i : Nat)
    (hfind : getPlayerIdx gs pid = some i)
    (hchips : 0 < (gs.players.getD i defPlayer).chips)
    (hnf : (gs.players.getD i defPlayer).folded = false) :
    (raise pid amt gs).1 = true ∧
    raiseActual gs amt (gs.players.getD i defPlayer) =
      min (gs.currentBet + amt - (gs.players.getD i defPlayer).currentBet)
        (gs.players.getD i defPlayer).chips ∧
    (raise pid amt gs).2.pot =
      gs.pot + raiseActual gs amt (gs.players.getD i defPlayer) ∧
    ((raise pid amt gs).2.players.getD i defPlayer).chips =
      (gs.players.getD i defPlayer).chips -
        raiseActual gs amt (gs.players.getD i defPlayer) ∧
    (gs.currentBet + amt - (gs.players.getD i defPlayer).currentBet ≤
        (gs.players.getD i defPlayer).chips →
      (raise pid amt gs).2.currentBet = gs.currentBet + amt) ∧
    (raiseActual gs amt (gs.players.getD i defPlayer) =
        (gs.players.getD i defPlayer).chips →
      ((raise pid amt gs).2.players.getD i defPlayer).chips = 0 ∧
      ((raise pid amt gs).2.players.getD i defPlayer).allIn = true) := by
  have hself := raise_players_getD_self gs pid amt i hfind hnf
  refine ⟨?_, rfl, ?_, ?_, ?_, ?_⟩
  · rw [raise_success_eq gs pid amt i hfind hnf]
  · rw [raise_success_eq gs pid amt i hfind hnf]
  · rw [hself]
    split <;> rfl
  · intro hle
    rw [raise_success_eq gs pid amt i hfind hnf]
    show (gs.players.getD i defPlayer).currentBet +
      raiseActual gs amt (gs.players.getD i defPlayer) = gs.currentBet + amt
    rw [show raiseActual gs amt (gs.players.getD i defPlayer) =
      min (gs.currentBet + amt - (gs.players.getD i defPlayer).currentBet)
        (gs.players.getD i defPlayer).chips from rfl, min_eq_left hle]
    ring
  · intro hcap
    have hz : (raisedPlayer gs amt (gs.players.getD i defPlayer)).chips = 0 := by
      show (gs.players.getD i defPlayer).chips -
        raiseActual gs amt (gs.players.getD i defPlayer) = 0
      rw [hcap]; ring
    rw [hself, if_pos hz]
    exact ⟨hz, rfl⟩

/-- Witness for the raise-semantics claim: B raises by 50 on top of a 0
bet to match, holding 80 chips. -/
theorem raise_amount_semantics_witness :
    getPlayerIdx raiseWitnessGs "B" = some 1 ∧
    (0 : ℚ) < (raiseWitnessGs.players.getD 1 defPlayer).chips ∧
    (raise "B" 50 raiseWitnessGs).1 = true ∧
    (raise "B" 50 raiseWitnessGs).2.currentBet = raiseWitnessGs.currentBet + 50 := by
  have h := raise_amount_semantics raiseWitnessGs "B" 50 1
    (by with_unfolding_all decide) (by with_unfolding_all decide)
    (by with_unfolding_all decide)
  exact ⟨by with_unfolding_all decide, by with_unfolding_all decide, h.1,
    h.2.2.2.2.1 (by with_unfolding_all decide)⟩

/-- Scenario table for the action-flag claim: A and B, 100 chips each, no
live bet yet. -/
def flagScenario : GameState :=
  { id := "g",
    players :=
      [{ defPlayer with id := "A", chips := 100 },
       { defPlayer with id := "B", chips := 100 }],
    communityCards := [], pot := 0, sidePots := [], currentBet := 0,
    dealerPosition := 0, currentPlayerIndex := 0, phase := .preflop,
    smallBlind := 10, bigBlind := 20, handNumber := 1 }

/-- The action-flag scenario after A checks. -/
def checkedScenario : GameState := (check "A" flagScenario).2

/-- The action-flag scenario after A checks and B raises by 10. -/
def raisedScenario : GameState := (raise "B" 10 checkedScenario).2

/-- The action-flag scenario after A then calls B's raise. -/
def calledScenario : GameState := (call "A" raisedScenario).2

/-- C5: a successful `raise` clears `hasActed` for every other non-folded,
non-all-in player; concretely, after A checks (`hasActed = true`) and B
raises, A's `hasActed` is false again and `isBettingRoundComplete()` stays
false until A acts again (it is true once A calls). -/
theorem raise_resets_action_flags :
    (∀ (gs : GameState) (pid : String) (amt : ℚ) (j : Nat),
      (raise pid amt gs).1 = true →
      j < (raise pid amt gs).2.players.length →
      ((raise pid amt gs).2.players.getD j defPlayer).id ≠ pid →
      ((raise pid amt gs).2.players.getD j defPlayer).folded = false →
      ((raise pid amt gs).2.players.getD j defPlayer).allIn = false →
      ((raise pid amt gs).2.players.getD j defPlayer).hasActed = false) ∧
    ((check "A" flagScenario).1 = true ∧
     (checkedScenario.players.getD 0 defPlayer).hasActed = true ∧
     (raise "B" 10 checkedScenario).1 = true ∧
     (raisedScenario.players.getD 0 defPlayer).hasActed = false ∧
     isBettingRoundComplete raisedScenario = false ∧
     (call "A" raisedScenario).1 = true ∧
     isBettingRoundComplete calledScenario = true) := by
  constructor
  · intro gs pid amt j hok hj hid hfld hai
    obtain ⟨i, hfind, hnf⟩ := raise_success_inv gs pid amt hok
    by_cases hij : j = i
    · subst hij
      have hpid := getPlayerIdx_id gs pid j hfind
      have : ((raise pid amt gs).2.players.getD j defPlayer).id = pid := by
        rw [raise_players_getD_self gs pid amt j hfind hnf]
        split
        · exact hpid
        · exact hpid
      exact (hid this).elim
    · rw [raise_players_getD_other gs pid amt i hfind hnf j hij] at hid hfld hai ⊢
      by_cases hcond : ((gs.players.getD j defPlayer).id != pid &&
          !(gs.players.getD j defPlayer).folded &&
          !(gs.players.getD j defPlayer).allIn) = true
      · rw [if_pos hcond]
      · rw [if_neg hcond] at hid hfld hai
        refine (hcond ?_).elim
        simp only [Bool.and_eq_true, bne_iff_ne, Bool.not_eq_true']
        exact ⟨⟨hid, hfld⟩, hai⟩
  · refine ⟨?_, ?_, ?_, ?_, ?_, ?_, ?_⟩ <;> with_unfolding_all decide

/-- Witness for the action-flag claim: the reset applied to seat A (index
0) after B's raise in the concrete scenario. -/
theorem raise_resets_action_flags_witness :
    (raise "B" 10 checkedScenario).1 = true ∧
    ((raise "B" 10 checkedScenario).2.players.getD 0 defPlayer).hasActed = false := by
  refine ⟨by with_unfolding_all decide, ?_⟩
  exact raise_resets_action_flags.1 checkedScenario "B" 10 0
    (by with_unfolding_all decide) (by with_unfolding_all decide)
    (by with_unfolding_all decide) (by with_unfolding_all decide)
    (by with_unfolding_all decide)

/-- C3: on contributions [100, 100, 50] (C all-in at 50) the pot computation
produces exactly two side pots, of amounts 150 (eligible {A, B, C}) and 100
(eligible {A, B}); the amounts sum to the 250 contributed, which is the
whole pot accumulated this hand (the remaining main pot is 0). -/
theorem sidePot_computation :
    ((calculatePots sidePotScenario).1.map (·.amount) = [150, 100]) ∧
    ((calculatePots sidePotScenario).1.length = 2) ∧
    (((calculatePots sidePotScenario).1.getD 0 ⟨0, []⟩).eligiblePlayers.Perm
      ["A", "B", "C"]) ∧
    (((calculatePots sidePotScenario).1.getD 1 ⟨0, []⟩).eligiblePlayers.Perm
      ["A", "B"]) ∧
    (((calculatePots sidePotScenario).1.map (·.amount)).sum = 250) ∧
    (sidePotScenario.pot = 250) ∧
    ((calculatePots sidePotScenario).2 = 0) := by
  with_unfolding_all decide

/-- The heads-up table mid-hand with a third player C seated by
`addPlayer` while the hand is running: C holds no cards. -/
def cardlessJoin : Engine := addPlayer "C" "c" 2 500 headsUpStart

/-- C7 counterexample: a player seated mid-hand holds no card, is not
folded — and `fold` still succeeds and mutates the state, so the actions
do NOT fail whenever the id "does not hold a card". -/
theorem action_preconditions_counterexample :
    ((cardlessJoin.gameState.players.getD 2 defPlayer).id = "C") ∧
    ((cardlessJoin.gameState.players.getD 2 defPlayer).cards = []) ∧
    ((cardlessJoin.gameState.players.getD 2 defPlayer).folded = false) ∧
    ((fold "C" cardlessJoin.gameState).1 = true) ∧
    (((fold "C" cardlessJoin.gameState).2.players.getD 2 defPlayer).folded = true) := by
  with_unfolding_all decide

/-- C7 (amended): `fold` / `call` / `raise` / `check` return false with the
state unchanged (no exception — they are total functions into
`Bool × GameState`) whenever the id is not seated or the player has
already folded, and `check` additionally fails when the player's
contribution is below the bet to match. -/
theorem action_preconditions :
    (∀ (gs : GameState) (pid : String) (amt : ℚ),
      (getPlayerIdx gs pid = none ∨
        (∃ i, getPlayerIdx gs pid = some i ∧
          (gs.players.getD i defPlayer).folded = true)) →
      fold pid gs = (false, gs) ∧ call pid gs = (false, gs) ∧
      raise pid amt gs = (false, gs) ∧ check pid gs = (false, gs)) ∧
    (∀ (gs : GameState) (pid : String) (i : Nat),
      getPlayerIdx gs pid = some i →
      (gs.players.getD i defPlayer).currentBet < gs.currentBet →
      check pid gs = (false, gs)) := by
  constructor
  · rintro gs pid amt (hn | ⟨i, hs, hf⟩)
    · exact ⟨by rw [fold, hn], by rw [call, hn], by rw [raise, hn], by rw [check, hn]⟩
    · refine ⟨?_, ?_, ?_, ?_⟩
      · rw [fold, hs]; dsimp only; rw [if_pos hf]
      · rw [call, hs]; dsimp only; rw [if_pos hf]
      · rw [raise, hs]; dsimp only; rw [if_pos hf]
      · rw [check, hs]; dsimp only; rw [if_pos hf]
  · intro gs pid i hs hlt
    rw [check, hs]
    dsimp only
    by_cases hf : (gs.players.getD i defPlayer).folded
    · rw [if_pos hf]
    · rw [if_neg hf, if_pos (ne_of_lt hlt)]

/-- Witness for the amended action-precondition claim: an id that is not
seated is rejected by all four actions without touching the state. -/
theorem action_preconditions_witness :
    getPlayerIdx raiseWitnessGs "Z" = none ∧
    fold "Z" raiseWitnessGs = (false, raiseWitnessGs) ∧
    check "Z" raiseWitnessGs = (false, raiseWitnessGs) := by
  have h := action_preconditions.1 raiseWitnessGs "Z" 0
    (Or.inl (by with_unfolding_all decide))
  exact ⟨by with_unfolding_all decide, h.1, h.2.2.2⟩

/-- Two `addPlayer` calls claiming the same seat index 0. -/
def occupiedSeat : Engine :=
  addPlayer "B" "b" 0 500 (addPlayer "A" "a" 0 1000 (newEngine "g" 10 20))

/-- Two `addPlayer` calls with the same participant id. -/
def duplicateId : Engine :=
  addPlayer "A" "a2" 1 500 (addPlayer "A" "a" 0 1000 (newEngine "g" 10 20))

/-- C8 counterexample: `addPlayer` does not fail on an occupied seat nor
on a duplicate id — in both cases the roster grows to 2 entries (and no
`SeatOccupied` / `DuplicateParticipant` error exists in the engine). -/
theorem addPlayer_failure_modes_counterexample :
    (occupiedSeat.gameState.players.length = 2) ∧
    (occupiedSeat.gameState.players.map (fun p => p.seatPosition) = [0, 0]) ∧
    (duplicateId.gameState.players.length = 2) ∧
    (duplicateId.gameState.players.map (fun p => p.id) = ["A", "A"]) := by
  with_unfolding_all decide

/-- C8 (amended): `addPlayer` never fails: whatever the seat index or id —
occupied or not — it appends the new player and re-sorts the roster by
seat position, so the roster afterwards is a permutation of the old roster
plus the new player, one entry longer, sorted by seat. -/
theorem addPlayer_always_inserts (id username : String) (seatPosition : Int)
    (chips : ℚ) (e : Engine) :
    ((addPlayer id username seatPosition chips e).gameState.players.length =
      e.gameState.players.length + 1) ∧
    ((addPlayer id username seatPosition chips e).gameState.players.Perm
      (e.gameState.players ++ [mkPlayer id username seatPosition chips])) ∧
    ((addPlayer id username seatPosition chips e).gameState.players.Sorted seatLe) := by
  refine ⟨?_, ?_, ?_⟩
  · rw [addPlayer]
    dsimp only
    rw [(List.perm_insertionSort seatLe _).length_eq]
    simp
  · exact List.perm_insertionSort seatLe _
  · exact List.sorted_insertionSort seatLe _


/-- With no eligible seat left, `setNextPlayer` forces the showdown and
resolves at once. -/
theorem setNextPlayer_resolve (ev : EvalFn) (gs : GameState)
    (h0 : (eligibleIdx gs).length = 0) :
    setNextPlayer ev gs = determineWinner ev { gs with phase := .showdown } := by
  rw [setNextPlayer, if_pos (by simpa using h0)]

/-- With an eligible seat left, `setNextPlayer` only moves the turn index:
either nowhere, or to a seat passing the loop guard. -/
theorem setNextPlayer_scan (ev : EvalFn) (gs : GameState)
    (hne : (eligibleIdx gs).length ≠ 0) :
    setNextPlayer ev gs = gs ∨
    ∃ j, (nextCandidates gs).find? (canActAt gs) = some j ∧
      canActAt gs j = true ∧
      setNextPlayer ev gs = { gs with currentPlayerIndex := j } := by
  rw [setNextPlayer, if_neg (by simpa using hne)]
  cases hfind : (nextCandidates gs).find? (canActAt gs) with
  | none => exact Or.inl rfl
  | some j => exact Or.inr ⟨j, rfl, List.find?_some hfind, rfl⟩

/-- The heads-up hand after B moves all-in: exactly one eligible
(non-folded, non-all-in) seat, A, remains. -/
def oneEligible : GameState := (raise "B" 980 headsUpStart.gameState).2

/-- C6 counterexample: in a reachable state with exactly one eligible seat
remaining (at most 1), `setNextPlayer` does NOT force the phase to
Showdown — it hands the turn to that seat and leaves the phase at
preflop.  Only zero eligible seats trigger the forced showdown. -/
theorem setNextPlayer_claim_counterexample :
    ((raise "B" 980 headsUpStart.gameState).1 = true) ∧
    ((oneEligible.players.filter fun p => !p.folded && !p.allIn).length = 1) ∧
    ((setNextPlayer takeOneEval oneEligible).phase = Phase.preflop) ∧
    ((setNextPlayer takeOneEval oneEligible).phase ≠ Phase.showdown) ∧
    ((setNextPlayer takeOneEval oneEligible).currentPlayerIndex = 0) := by
  with_unfolding_all decide

/-- C6 (amended): `setNextPlayer` never hands the turn to a folded,
all-in or chip-less seat — when it assigns a seat, that seat passes the
guard (not folded, not all-in, chips > 0) and nothing else changes; and
when zero eligible seats remain it forces the phase to Showdown and
resolves the hand immediately via `determineWinner`. -/
theorem setNextPlayer_turn_selection (ev : EvalFn) (gs : GameState) :
    ((eligibleIdx gs).length = 0 →
      setNextPlayer ev gs = determineWinner ev { gs with phase := .showdown }) ∧
    ((eligibleIdx gs).length ≠ 0 →
      setNextPlayer ev gs = gs ∨
      ((setNextPlayer ev gs).players = gs.players ∧
       (setNextPlayer ev gs).phase = gs.phase ∧
       (gs.players.getD (setNextPlayer ev gs).currentPlayerIndex defPlayer).folded
         = false ∧
       (gs.players.getD (setNextPlayer ev gs).currentPlayerIndex defPlayer).allIn
         = false ∧
       0 < (gs.players.getD (setNextPlayer ev gs).currentPlayerIndex defPlayer).chips)) := by
  constructor
  · exact setNextPlayer_resolve ev gs
  · intro hne
    rcases setNextPlayer_scan ev gs hne with h | ⟨j, hfind, hcan, heq⟩
    · exact Or.inl h
    · right
      rw [heq]
      rw [canActAt] at hcan
      simp only [Bool.and_eq_true, Bool.not_eq_true', decide_eq_true_eq] at hcan
      exact ⟨rfl, rfl, hcan.1.1, hcan.1.2, hcan.2⟩

/-- A table where both seats are all-in: zero eligible seats remain. -/
def allInTable : GameState :=
  { id := "g",
    players :=
      [{ defPlayer with id := "A", currentBet := 50, allIn := true },
       { defPlayer with id := "B", currentBet := 50, allIn := true }],
    communityCards := [], pot := 100, sidePots := [], currentBet := 50,
    dealerPosition := 0, currentPlayerIndex := 0, phase := .preflop,
    smallBlind := 10, bigBlind := 20, handNumber := 1 }

/-- Witness for the amended turn-selection claim: on the all-in table the
forced showdown fires. -/
theorem setNextPlayer_turn_selection_witness :
    (eligibleIdx allInTable).length = 0 ∧
    setNextPlayer takeOneEval allInTable =
      determineWinner takeOneEval { allInTable with phase := Phase.showdown } :=
  ⟨by with_unfolding_all decide,
    (setNextPlayer_turn_selection takeOneEval allInTable).1
      (by with_unfolding_all decide)⟩

section DeckLemmas

variable {α : Type u1}

/-- Putting the element read at `k` in front of a write at `k` permutes a
cons of the original list. -/
theorem getD_cons_set_perm (d : α) :
    ∀ (t : List α) (k : Nat) (x : α), k < t.length →
      ((t.getD k d) :: t.set k x).Perm (x :: t)
  | [], k, x, h => absurd h (by simp)
  | y :: s, 0, x, _ => List.Perm.swap x y s
  | y :: s, k + 1, x, h => by
    have hk : k < s.length := by simpa using h
    show ((s.getD k d) :: y :: s.set k x).Perm (x :: y :: s)
    have h1 : ((s.getD k d) :: y :: s.set k x).Perm
        (y :: (s.getD k d) :: s.set k x) := List.Perm.swap _ _ _
    have h2 : (y :: (s.getD k d) :: s.set k x).Perm (y :: x :: s) :=
      (getD_cons_set_perm d s k x hk).cons y
    have h3 : (y :: x :: s).Perm (x :: y :: s) := List.Perm.swap _ _ _
    exact (h1.trans h2).trans h3

/-- A two-index swap implemented with `List.set` permutes the list. -/
theorem set_set_swap_perm (d : α) :
    ∀ (l : List α) (i j : Nat), i < l.length → j < l.length →
      ((l.set i (l.getD j d)).set j (l.getD i d)).Perm l
  | [], i, _, hi, _ => absurd hi (by simp)
  | x :: t, 0, 0, _, _ => by simp
  | x :: t, 0, k + 1, _, hj => by
    have hk : k < t.length := by simpa using hj
    simpa using getD_cons_set_perm d t k x hk
  | x :: t, k + 1, 0, hi, _ => by
    have hk : k < t.length := by simpa using hi
    simpa using getD_cons_set_perm d t k x hk
  | x :: t, k + 1, m + 1, hi, hj => by
    have hk : k < t.length := by simpa using hi
    have hm : m < t.length := by simpa using hj
    simpa using (set_set_swap_perm d t k m hk hm).cons x

end DeckLemmas

/-- `swapCards` permutes the deck. -/
theorem swapCards_perm (l : List Card) (i j : Nat) (hi : i < l.length)
    (hj : j < l.length) : (swapCards l i j).Perm l :=
  set_set_swap_perm defCard l i j hi hj

/-- The Fisher-Yates loop permutes the deck. -/
theorem fyGo_perm (rng : Nat → Nat) :
    ∀ (k : Nat) (l : List Card), k < l.length → (fyGo rng k l).Perm l
  | 0, _, _ => List.Perm.refl _
  | k + 1, l, h => by
    have hswap : (swapCards l (k + 1) (rng (k + 1) % (k + 2))).Perm l :=
      swapCards_perm l (k + 1) (rng (k + 1) % (k + 2)) h
        (lt_of_lt_of_le (Nat.mod_lt _ (Nat.succ_pos _)) h)
    have hlen : (swapCards l (k + 1) (rng (k + 1) % (k + 2))).length = l.length := by
      simp [swapCards]
    exact (fyGo_perm rng k _ (by rw [hlen]; omega)).trans hswap

/-- Every shuffle outcome is a permutation of the fresh deck. -/
theorem createDeck_perm (rng : Nat → Nat) : (createDeck rng).Perm freshDeck := by
  have h : freshDeck.length = 52 := by decide
  rw [createDeck]
  exact fyGo_perm rng (freshDeck.length - 1) freshDeck (by omega)

/-- Membership in the fresh deck is exactly having a standard rank and a
standard suit. -/
theorem mem_freshDeck (c : Card) : c ∈ freshDeck ↔ c.rank ∈ ranks ∧ c.suit ∈ suits := by
  rw [freshDeck]
  simp only [List.mem_flatten, List.mem_map]
  constructor
  · rintro ⟨l, ⟨suit, hs, rfl⟩, hc⟩
    obtain ⟨rank, hr, rfl⟩ := List.mem_map.mp hc
    exact ⟨hr, hs⟩
  · rintro ⟨hr, hs⟩
    exact ⟨ranks.map fun rank => { rank, suit := c.suit }, ⟨c.suit, hs, rfl⟩,
      List.mem_map.mpr ⟨c.rank, hr, rfl⟩⟩

/-- C9: for every shuffle outcome, the 52 cards of the fresh deck built by
`createDeck()` are pairwise distinct and exactly cover the standard
13-rank × 4-suit set: the shuffled deck is a permutation of the standard
deck, has 52 cards, no duplicates, and contains a card iff its rank and
suit are standard. -/
theorem deck_integrity (rng : Nat → Nat) :
    (createDeck rng).Perm freshDeck ∧
    (createDeck rng).length = 52 ∧
    (createDeck rng).Nodup ∧
    freshDeck.Nodup ∧
    (∀ c : Card, c ∈ createDeck rng ↔ c.rank ∈ ranks ∧ c.suit ∈ suits) := by
  have hperm := createDeck_perm rng
  have hnodup : freshDeck.Nodup := by decide
  refine ⟨hperm, ?_, ?_, hnodup, ?_⟩
  · rw [hperm.length_eq]; decide
  · exact hperm.nodup_iff.mpr hnodup
  · intro c
    rw [hperm.mem_iff]
    exact mem_freshDeck c

/-- A table with a live bet of 100 where B holds only 30 chips: B's raise
is capped by the stack. -/
def capScenario : GameState :=
  { id := "g",
    players :=
      [{ defPlayer with id := "A", chips := 400, currentBet := 100 },
       { defPlayer with id := "B", chips := 30 }],
    communityCards := [], pot := 100, sidePots := [], currentBet := 100,
    dealerPosition := 0, currentPlayerIndex := 1, phase := .preflop,
    smallBlind := 10, bigBlind := 20, handNumber := 1 }

/-- C10: every successful `raise` sets the table's bet to match to the
raiser's resulting contribution — including the capped case, where it can
drop below its previous value (non-monotone within the round, shown
concretely: a bet to match of 100 drops to 30) — while still clearing the
other non-folded, non-all-in players' `hasActed`; and the host's all-in
action, a raise of `chips + contribution - currentBet`, moves exactly the
raiser's remaining stack, flags all-in, and sets the bet to match to
`contribution + chips`. -/
theorem raise_bet_to_match_is_contribution :
    (∀ (gs : GameState) (pid : String) (amt : ℚ) (i : Nat),
      getPlayerIdx gs pid = some i →
      (gs.players.getD i defPlayer).folded = false →
      ((raise pid amt gs).2.currentBet =
        ((raise pid amt gs).2.players.getD i defPlayer).currentBet) ∧
      (amt = hostAllInAmount gs (gs.players.getD i defPlayer) →
        raiseActual gs amt (gs.players.getD i defPlayer) =
          (gs.players.getD i defPlayer).chips ∧
        ((raise pid amt gs).2.players.getD i defPlayer).chips = 0 ∧
        ((raise pid amt gs).2.players.getD i defPlayer).allIn = true ∧
        (raise pid amt gs).2.currentBet =
          (gs.players.getD i defPlayer).currentBet +
            (gs.players.getD i defPlayer).chips) ∧
      (∀ j, j ≠ i → j < gs.players.length →
        (gs.players.getD j defPlayer).id ≠ pid →
        (gs.players.getD j defPlayer).folded = false →
        (gs.players.getD j defPlayer).allIn = false →
        ((raise pid amt gs).2.players.getD j defPlayer).hasActed = false)) ∧
    ((raise "B" 50 capScenario).1 = true ∧
     capScenario.currentBet = 100 ∧
     (raise "B" 50 capScenario).2.currentBet = 30 ∧
     (raise "B" 50 capScenario).2.currentBet < capScenario.currentBet ∧
     ((raise "B" 50 capScenario).2.players.getD 0 defPlayer).hasActed = false) := by
  constructor
  · intro gs pid amt i hfind hnf
    have hbet : (raise pid amt gs).2.currentBet =
        (raisedPlayer gs amt (gs.players.getD i defPlayer)).currentBet := by
      rw [raise_success_eq gs pid amt i hfind hnf]
    refine ⟨?_, ?_, ?_⟩
    · have h2 : ((raise pid amt gs).2.players.getD i defPlayer).currentBet =
          (raisedPlayer gs amt (gs.players.getD i defPlayer)).currentBet := by
        rw [raise_players_getD_self gs pid amt i hfind hnf]
        split <;> rfl
      exact hbet.trans h2.symm
    · intro hamt
      have h1 : gs.currentBet + amt - (gs.players.getD i defPlayer).currentBet =
          (gs.players.getD i defPlayer).chips := by
        rw [hamt, hostAllInAmount]; ring
      have hra : raiseActual gs amt (gs.players.getD i defPlayer) =
          (gs.players.getD i defPlayer).chips := by
        show min (gs.currentBet + amt - (gs.players.getD i defPlayer).currentBet)
          (gs.players.getD i defPlayer).chips = (gs.players.getD i defPlayer).chips
        rw [h1, min_self]
      have hz : (raisedPlayer gs amt (gs.players.getD i defPlayer)).chips = 0 := by
        show (gs.players.getD i defPlayer).chips -
          raiseActual gs amt (gs.players.getD i defPlayer) = 0
        rw [hra]; ring
      refine ⟨hra, ?_, ?_, ?_⟩
      · rw [raise_players_getD_self gs pid amt i hfind hnf, if_pos hz]
        exact hz
      · rw [raise_players_getD_self gs pid amt i hfind hnf, if_pos hz]
      · rw [hbet]
        show (gs.players.getD i defPlayer).currentBet +
          raiseActual gs amt (gs.players.getD i defPlayer) = _
        rw [hra]
    · intro j hji hj hid hfld hai
      rw [raise_players_getD_other gs pid amt i hfind hnf j hji]
      rw [if_pos (by
        simp only [Bool.and_eq_true, bne_iff_ne, Bool.not_eq_true']
        exact ⟨⟨hid, hfld⟩, hai⟩)]
  · refine ⟨?_, ?_, ?_, ?_, ?_⟩ <;> with_unfolding_all decide

/-- Witness for the bet-to-match claim: B's capped raise on the concrete
table, through the general statement. -/
theorem raise_bet_to_match_is_contribution_witness :
    getPlayerIdx capScenario "B" = some 1 ∧
    (raise "B" 50 capScenario).2.currentBet =
      ((raise "B" 50 capScenario).2.players.getD 1 defPlayer).currentBet := by
  have h := raise_bet_to_match_is_contribution.1 capScenario "B" 50 1
    (by with_unfolding_all decide) (by with_unfolding_all decide)
  exact ⟨by with_unfolding_all decide, h.1⟩

section ConservationBasics

/-- Total chips in the seated players' stacks. -/
def sumChips (gs : GameState) : ℚ := (gs.players.map (fun p => p.chips)).sum

/-- Total current-round contributions of the seated players. -/
def sumBets (gs : GameState) : ℚ := (gs.players.map (fun p => p.currentBet)).sum

/-- Reading an in-range index yields a member of the list. -/
theorem getD_mem_of_lt {α : Type u1} (l : List α) (i : Nat) (d : α)
    (h : i < l.length) : l.getD i d ∈ l := by
  have he : l.getD i d = l.get ⟨i, h⟩ := by
    simp [List.getD_eq_getElem?_getD, List.getElem?_eq_getElem h]
  rw [he]
  exact List.get_mem l i h

/-- Effect of `List.set` on a mapped sum, within bounds. -/
theorem sum_map_set (f : Player → ℚ) (ps : List Player) (i : Nat) (p1 : Player)
    (hi : i < ps.length) :
    ((ps.set i p1).map f).sum = (ps.map f).sum - f (ps.getD i defPlayer) + f p1 := by
  rw [List.map_set, List.sum_set']
  have hlen : i < (ps.map f).length := by simpa using hi
  rw [dif_pos hlen]
  have hval : (ps.map f)[i] = f (ps.getD i defPlayer) := by
    rw [List.getElem_map]
    congr 1
    simp [List.getD_eq_getElem?_getD, List.getElem?_eq_getElem hi]
  rw [hval]
  ring

/-- A write that does not change the mapped value keeps the mapped sum,
with no bound needed. -/
theorem sum_map_set_eq (f : Player → ℚ) (ps : List Player) (i : Nat) (v : Player)
    (hfv : f v = f (ps.getD i defPlayer)) :
    ((ps.set i v).map f).sum = (ps.map f).sum := by
  by_cases hi : i < ps.length
  · rw [sum_map_set f ps i v hi, hfv]; ring
  · rw [List.set_eq_of_length_le (Nat.le_of_not_lt hi)]

/-- Members of a written list, traced back to the original (the write is
assumed to keep chips and contribution). -/
theorem mem_set_shape (ps : List Player) (i : Nat) (v : Player) (q : Player)
    (hq : q ∈ ps.set i v)
    (hfv : v.chips = (ps.getD i defPlayer).chips ∧
      v.currentBet = (ps.getD i defPlayer).currentBet) :
    ∃ q0 ∈ ps, q.chips = q0.chips ∧ q.currentBet = q0.currentBet := by
  rcases List.mem_or_eq_of_mem_set hq with h | rfl
  · exact ⟨q, h, rfl, rfl⟩
  · by_cases hi : i < ps.length
    · exact ⟨ps.getD i defPlayer, getD_mem_of_lt ps i defPlayer hi, hfv.1, hfv.2⟩
    · refine ⟨q, ?_, rfl, rfl⟩
      rwa [List.set_eq_of_length_le (Nat.le_of_not_lt hi)] at hq

/-- The chip-accounting invariant carried through a hand: non-negative
stacks, bets and bet to match, bets bounded by the pot, and
`pot + Σ stacks` equal to the stack total `S` from before the hand. -/
structure ChipInv (S : ℚ) (gs : GameState) : Prop where
  chips_nonneg : ∀ p ∈ gs.players, 0 ≤ p.chips
  bets_nonneg : ∀ p ∈ gs.players, 0 ≤ p.currentBet
  curBet_nonneg : 0 ≤ gs.currentBet
  bets_le_pot : sumBets gs ≤ gs.pot
  conserve : gs.pot + sumChips gs = S

/-- Transport the invariant across a state equal in players, pot and bet
to match. -/
theorem ChipInv.congr (S : ℚ) (gs gs2 : GameState) (h : ChipInv S gs)
    (hp : gs2.players = gs.players) (hpot : gs2.pot = gs.pot)
    (hcb : gs2.currentBet = gs.currentBet) : ChipInv S gs2 := by
  constructor
  · rw [hp]; exact h.chips_nonneg
  · rw [hp]; exact h.bets_nonneg
  · rw [hcb]; exact h.curBet_nonneg
  · rw [sumBets, hp, hpot]; exact h.bets_le_pot
  · rw [sumChips, hp, hpot]; exact h.conserve

/-- Rebuild the invariant after an update whose player list keeps the two
sums and traces every member back (flag-only updates). -/
theorem ChipInv.update (S : ℚ) (gs gs2 : GameState) (h : ChipInv S gs)
    (hpot : gs2.pot = gs.pot) (hcb : gs2.currentBet = gs.currentBet)
    (hsc : (gs2.players.map (fun p => p.chips)).sum =
      (gs.players.map (fun p => p.chips)).sum)
    (hsb2 : (gs2.players.map (fun p => p.currentBet)).sum =
      (gs.players.map (fun p => p.currentBet)).sum)
    (hm : ∀ q ∈ gs2.players, ∃ q0 ∈ gs.players,
      q.chips = q0.chips ∧ q.currentBet = q0.currentBet) : ChipInv S gs2 := by
  constructor
  · intro q hq
    obtain ⟨q0, hq0, hc, -⟩ := hm q hq
    rw [hc]; exact h.chips_nonneg q0 hq0
  · intro q hq
    obtain ⟨q0, hq0, -, hb⟩ := hm q hq
    rw [hb]; exact h.bets_nonneg q0 hq0
  · rw [hcb]; exact h.curBet_nonneg
  · rw [sumBets, hsb2, hpot]; exact h.bets_le_pot
  · rw [sumChips, hsc, hpot]; exact h.conserve

/-- `fold` preserves the chip-accounting invariant. -/
theorem chipInv_fold (S : ℚ) (pid : String) (gs : GameState)
    (h : ChipInv S gs) : ChipInv S (fold pid gs).2 := by
  cases hfi : getPlayerIdx gs pid with
  | none => rw [fold, hfi]; exact h
  | some i =>
    by_cases hf : (gs.players.getD i defPlayer).folded
    · rw [fold, hfi]; dsimp only; rw [if_pos hf]; exact h
    · rw [fold, hfi]; dsimp only; rw [if_neg hf]
      refine ChipInv.update S gs _ h rfl rfl ?_ ?_ ?_
      · exact sum_map_set_eq _ _ _ _ rfl
      · exact sum_map_set_eq _ _ _ _ rfl
      · intro q hq
        exact mem_set_shape _ _ _ q hq ⟨rfl, rfl⟩

/-- `check` preserves the chip-accounting invariant. -/
theorem chipInv_check (S : ℚ) (pid : String) (gs : GameState)
    (h : ChipInv S gs) : ChipInv S (check pid gs).2 := by
  cases hfi : getPlayerIdx gs pid with
  | none => rw [check, hfi]; exact h
  | some i =>
    by_cases hf : (gs.players.getD i defPlayer).folded
    · rw [check, hfi]; dsimp only; rw [if_pos hf]; exact h
    · rw [check, hfi]; dsimp only; rw [if_neg hf]
      by_cases hb : (gs.players.getD i defPlayer).currentBet ≠ gs.currentBet
      · rw [if_pos hb]; exact h
      · rw [if_neg hb]
        refine ChipInv.update S gs _ h rfl rfl ?_ ?_ ?_
        · exact sum_map_set_eq _ _ _ _ rfl
        · exact sum_map_set_eq _ _ _ _ rfl
        · intro q hq
          exact mem_set_shape _ _ _ q hq ⟨rfl, rfl⟩

end ConservationBasics

section ConservationActions

/-- `resetOthers` keeps any player-measure that ignores `hasActed`. -/
theorem sum_map_resetOthers (f : Player → ℚ)
    (hf : ∀ q : Player, f { q with hasActed := false } = f q)
    (pid : String) (ps : List Player) :
    ((resetOthers pid ps).map f).sum = (ps.map f).sum := by
  refine congrArg List.sum ?_
  rw [resetOthers, List.map_map]
  apply List.map_congr_left
  intro q hq
  dsimp only [Function.comp]
  split
  · exact hf q
  · rfl

/-- Members of `resetOthers` traced back with chips and bet unchanged. -/
theorem mem_resetOthers_shape (pid : String) (ps : List Player) (q : Player)
    (hq : q ∈ resetOthers pid ps) :
    ∃ q0 ∈ ps, q.chips = q0.chips ∧ q.currentBet = q0.currentBet := by
  rw [resetOthers] at hq
  obtain ⟨q0, hq0, rfl⟩ := List.mem_map.mp hq
  refine ⟨q0, hq0, ?_, ?_⟩ <;> dsimp only <;> split <;> rfl

/-- The raiser's seat inside the reset roster. -/
theorem resetOthers_set_getD (gs : GameState) (pid : String) (amt : ℚ) (i : Nat)
    (hfind : getPlayerIdx gs pid = some i) :
    (resetOthers pid
      (gs.players.set i (raisedPlayer gs amt (gs.players.getD i defPlayer)))).getD
        i defPlayer = raisedPlayer gs amt (gs.players.getD i defPlayer) := by
  have hi : i < gs.players.length := getPlayerIdx_lt gs pid i hfind
  have hid : (gs.players.getD i defPlayer).id = pid := getPlayerIdx_id gs pid i hfind
  have hset : (gs.players.set i (raisedPlayer gs amt (gs.players.getD i defPlayer))).getD
      i defPlayer = raisedPlayer gs amt (gs.players.getD i defPlayer) :=
    getD_set_self _ _ _ _ (by simpa using hi)
  rw [resetOthers_getD_raiser pid _ i (by simpa using hi)
    (by rw [hset]; exact hid), hset]

/-- `call` preserves the chip-accounting invariant. -/
theorem chipInv_call (S : ℚ) (pid : String) (gs : GameState)
    (h : ChipInv S gs) : ChipInv S (call pid gs).2 := by
  cases hfi : getPlayerIdx gs pid with
  | none => rw [call, hfi]; exact h
  | some i =>
    by_cases hf : (gs.players.getD i defPlayer).folded
    · rw [call, hfi]; dsimp only; rw [if_pos hf]; exact h
    · rw [call, hfi]; dsimp only; rw [if_neg hf]
      have hi : i < gs.players.length := getPlayerIdx_lt gs pid i hfi
      set p := gs.players.getD i defPlayer with hp
      have hpmem : p ∈ gs.players := getD_mem_of_lt _ _ _ hi
      have hpc : 0 ≤ p.chips := h.chips_nonneg p hpmem
      have hpb : 0 ≤ p.currentBet := h.bets_nonneg p hpmem
      set a := min (gs.currentBet - p.currentBet) p.chips with ha
      have haleq : a ≤ p.chips := min_le_right _ _
      have hbet2 : 0 ≤ p.currentBet + a := by
        rcases le_total (gs.currentBet - p.currentBet) p.chips with hmin | hmin
        · rw [ha, min_eq_left hmin]
          have := h.curBet_nonneg
          linarith
        · rw [ha, min_eq_right hmin]
          linarith
      have key : ∀ p2 : Player, p2.chips = p.chips - a →
          p2.currentBet = p.currentBet + a →
          ChipInv S { gs with players := gs.players.set i p2, pot := gs.pot + a } := by
        intro p2 hc2 hb2
        constructor
        · intro q hq
          rcases List.mem_or_eq_of_mem_set hq with hmem | rfl
          · exact h.chips_nonneg q hmem
          · rw [hc2]; linarith
        · intro q hq
          rcases List.mem_or_eq_of_mem_set hq with hmem | rfl
          · exact h.bets_nonneg q hmem
          · rw [hb2]; exact hbet2
        · exact h.curBet_nonneg
        · show ((gs.players.set i p2).map (fun q => q.currentBet)).sum ≤ gs.pot + a
          rw [sum_map_set (fun q => q.currentBet) gs.players i p2 hi, hb2]
          have hle := h.bets_le_pot
          rw [sumBets] at hle
          linarith
        · show gs.pot + a + ((gs.players.set i p2).map (fun q => q.chips)).sum = S
          rw [sum_map_set (fun q => q.chips) gs.players i p2 hi, hc2]
          have hcons := h.conserve
          rw [sumChips] at hcons
          linarith
      by_cases hz : p.chips - a = 0
      · rw [if_pos hz]
        exact key _ rfl rfl
      · rw [if_neg hz]
        exact key _ rfl rfl

/-- `raise` with a nonnegative amount preserves the chip-accounting
invariant. -/
theorem chipInv_raise (S : ℚ) (pid : String) (amt : ℚ) (gs : GameState)
    (hamt : 0 ≤ amt) (h : ChipInv S gs) : ChipInv S (raise pid amt gs).2 := by
  cases hfi : getPlayerIdx gs pid with
  | none => rw [raise, hfi]; exact h
  | some i =>
    by_cases hf : (gs.players.getD i defPlayer).folded
    · rw [raise, hfi]; dsimp only; rw [if_pos hf]; exact h
    · rw [raise_success_eq gs pid amt i hfi (by simpa using hf)]
      have hi : i < gs.players.length := getPlayerIdx_lt gs pid i hfi
      set p := gs.players.getD i defPlayer with hp
      have hpmem : p ∈ gs.players := getD_mem_of_lt _ _ _ hi
      have hpc : 0 ≤ p.chips := h.chips_nonneg p hpmem
      have hpb : 0 ≤ p.currentBet := h.bets_nonneg p hpmem
      have ha0 : raiseActual gs amt p =
          min (gs.currentBet + amt - p.currentBet) p.chips := rfl
      have haleq : raiseActual gs amt p ≤ p.chips := by
        rw [ha0]; exact min_le_right _ _
      have hbet2 : 0 ≤ p.currentBet + raiseActual gs amt p := by
        rcases le_total (gs.currentBet + amt - p.currentBet) p.chips with hmin | hmin
        · rw [ha0, min_eq_left hmin]
          have := h.curBet_nonneg
          linarith
        · rw [ha0, min_eq_right hmin]
          linarith
      have hp1c : (raisedPlayer gs amt p).chips = p.chips - raiseActual gs amt p := rfl
      have hp1b : (raisedPlayer gs amt p).currentBet =
          p.currentBet + raiseActual gs amt p := rfl
      set ps1 := gs.players.set i (raisedPlayer gs amt p) with hps1
      set ps2 := resetOthers pid ps1 with hps2
      have hsc2 : (ps2.map (fun q => q.chips)).sum =
          (gs.players.map (fun q => q.chips)).sum - p.chips
            + (p.chips - raiseActual gs amt p) := by
        rw [hps2, sum_map_resetOthers (fun q => q.chips) (fun q => rfl) pid ps1, hps1]
        rw [sum_map_set (fun q => q.chips) gs.players i _ hi, ← hp, hp1c]
      have hsb2 : (ps2.map (fun q => q.currentBet)).sum =
          (gs.players.map (fun q => q.currentBet)).sum - p.currentBet
            + (p.currentBet + raiseActual gs amt p) := by
        rw [hps2, sum_map_resetOthers (fun q => q.currentBet) (fun q => rfl) pid ps1,
          hps1]
        rw [sum_map_set (fun q => q.currentBet) gs.players i _ hi, ← hp, hp1b]
      have hmem2 : ∀ q ∈ ps2, (0 ≤ q.chips ∧ 0 ≤ q.currentBet) := by
        intro q hq
        obtain ⟨q0, hq0, hqc, hqb⟩ := mem_resetOthers_shape pid ps1 q (hps2 ▸ hq)
        rcases List.mem_or_eq_of_mem_set (hps1 ▸ hq0) with hmem | rfl
        · exact ⟨hqc ▸ h.chips_nonneg q0 hmem, hqb ▸ h.bets_nonneg q0 hmem⟩
        · constructor
          · rw [hqc, hp1c]; linarith
          · rw [hqb, hp1b]; exact hbet2
      have hro : ps2.getD i defPlayer = raisedPlayer gs amt p := by
        rw [hps2, hps1]
        exact resetOthers_set_getD gs pid amt i hfi
      have key : ∀ ps3 : List Player,
          ((ps3.map (fun q => q.chips)).sum = (ps2.map (fun q => q.chips)).sum) →
          ((ps3.map (fun q => q.currentBet)).sum =
            (ps2.map (fun q => q.currentBet)).sum) →
          (∀ q ∈ ps3, 0 ≤ q.chips ∧ 0 ≤ q.currentBet) →
          ChipInv S { gs with players := ps3, pot := gs.pot + raiseActual gs amt p, currentBet := (raisedPlayer gs amt p).currentBet } := by
        intro ps3 hc3 hb3 hm3
        constructor
        · intro q hq; exact (hm3 q hq).1
        · intro q hq; exact (hm3 q hq).2
        · show 0 ≤ (raisedPlayer gs amt p).currentBet
          rw [hp1b]; exact hbet2
        · show (ps3.map (fun q => q.currentBet)).sum ≤ gs.pot + raiseActual gs amt p
          have hle := h.bets_le_pot
          rw [sumBets] at hle
          rw [hb3, hsb2]
          linarith
        · show gs.pot + raiseActual gs amt p + (ps3.map (fun q => q.chips)).sum = S
          have hcons := h.conserve
          rw [sumChips] at hcons
          rw [hc3, hsc2]
          linarith
      by_cases hz : (raisedPlayer gs amt p).chips = 0
      · rw [if_pos hz]
        refine key _ ?_ ?_ ?_
        · exact sum_map_set_eq (fun q => q.chips) ps2 i _ rfl
        · exact sum_map_set_eq (fun q => q.currentBet) ps2 i _ rfl
        · intro q hq
          rcases List.mem_or_eq_of_mem_set hq with hmem | rfl
          · exact hmem2 q hmem
          · have hc : ({ ps2.getD i defPlayer with allIn := true } : Player).chips
                = (raisedPlayer gs amt p).chips := by rw [hro]
            have hb : ({ ps2.getD i defPlayer with allIn := true } : Player).currentBet
                = (raisedPlayer gs amt p).currentBet := by rw [hro]
            constructor
            · rw [hc, hp1c]; linarith
            · rw [hb, hp1b]; exact hbet2
      · rw [if_neg hz]
        exact key _ rfl rfl hmem2

end ConservationActions

section ConservationPhases

/-- A seat that keeps the everyone-is-all-in fast path of `setNextPlayer`
from firing: chips left, not folded, not all-in. -/
def someEligible (gs : GameState) : Prop :=
  ∃ p ∈ gs.players, 0 < p.chips ∧ p.folded = false ∧ p.allIn = false

instance : DecidablePred someEligible := fun gs =>
  List.decidableBEx _ gs.players

/-- `someEligible` only looks at the roster. -/
theorem someEligible_congr (gs gs2 : GameState) (hp : gs2.players = gs.players)
    (h : someEligible gs) : someEligible gs2 := by
  rw [someEligible, hp]
  exact h

/-- The round reset keeps eligibility. -/
theorem someEligible_resetRound (gs : GameState) (h : someEligible gs) :
    someEligible (resetRound gs) := by
  obtain ⟨p, hp, hc, hf, ha⟩ := h
  exact ⟨{ p with currentBet := 0, hasActed := false },
    List.mem_map.mpr ⟨p, hp, rfl⟩, hc, hf, ha⟩

/-- With an eligible seat, `eligibleIdx` is non-empty. -/
theorem eligibleIdx_ne_of_someEligible (gs : GameState) (h : someEligible gs) :
    (eligibleIdx gs).length ≠ 0 := by
  obtain ⟨q, hq, hc, hfld, hal⟩ := h
  obtain ⟨i, hilt, hie⟩ := List.mem_iff_getElem.mp hq
  have hgetD : gs.players.getD i defPlayer = q := by
    simp [List.getD_eq_getElem?_getD, List.getElem?_eq_getElem hilt, hie]
  have h1 : i ∈ activeIdx gs := by
    rw [activeIdx]
    refine List.mem_filter.mpr ⟨List.mem_range.mpr hilt, ?_⟩
    dsimp only
    rw [hgetD]
    simp [hc]
  have h2 : i ∈ eligibleIdx gs := by
    rw [eligibleIdx]
    refine List.mem_filter.mpr ⟨h1, ?_⟩
    dsimp only
    rw [hgetD]
    simp [hfld, hal]
  intro h0
  rw [List.length_eq_zero] at h0
  rw [h0] at h2
  exact absurd h2 (List.not_mem_nil i)

/-- The non-resolving `setNextPlayer` keeps the invariant. -/
theorem chipInv_next (S : ℚ) (ev : EvalFn) (gs : GameState) (h : ChipInv S gs)
    (hel : someEligible gs) : ChipInv S (setNextPlayer ev gs) := by
  rcases setNextPlayer_scan ev gs (eligibleIdx_ne_of_someEligible gs hel) with
    heq | ⟨j, -, -, heq⟩
  · rw [heq]; exact h
  · rw [heq]; exact ChipInv.congr S gs _ h rfl rfl rfl

/-- Bets are nonnegative, so their sum is. -/
theorem sumBets_nonneg (gs : GameState) (h : ∀ p ∈ gs.players, 0 ≤ p.currentBet) :
    0 ≤ sumBets gs := by
  rw [sumBets]
  apply List.sum_nonneg
  intro x hx
  obtain ⟨q, hq, rfl⟩ := List.mem_map.mp hx
  exact h q hq

/-- The round reset keeps the chip total. -/
theorem sumChips_resetRound (gs : GameState) :
    sumChips (resetRound gs) = sumChips gs := by
  rw [sumChips, sumChips, resetRound]
  dsimp only
  rw [List.map_map]
  exact congrArg List.sum (List.map_congr_left fun q _ => rfl)

/-- The round reset zeroes the bet total. -/
theorem sumBets_resetRound (gs : GameState) : sumBets (resetRound gs) = 0 := by
  rw [sumBets, resetRound]
  dsimp only
  rw [List.map_map]
  have hcongr : List.map ((fun p => p.currentBet) ∘
      fun p : Player => { p with currentBet := 0, hasActed := false }) gs.players =
      List.map (fun _ : Player => (0 : ℚ)) gs.players :=
    List.map_congr_left fun q _ => rfl
  rw [hcongr]
  simp

/-- The round reset keeps the invariant. -/
theorem chipInv_resetRound (S : ℚ) (gs : GameState) (h : ChipInv S gs) :
    ChipInv S (resetRound gs) := by
  constructor
  · intro q hq
    rw [resetRound] at hq
    dsimp only at hq
    obtain ⟨q0, hq0, rfl⟩ := List.mem_map.mp hq
    exact h.chips_nonneg q0 hq0
  · intro q hq
    rw [resetRound] at hq
    dsimp only at hq
    obtain ⟨q0, hq0, rfl⟩ := List.mem_map.mp hq
    exact le_refl 0
  · exact le_refl 0
  · rw [sumBets_resetRound]
    have h1 := h.bets_le_pot
    have h2 := sumBets_nonneg gs h.bets_nonneg
    show (0 : ℚ) ≤ gs.pot
    linarith
  · show gs.pot + sumChips (resetRound gs) = S
    rw [sumChips_resetRound]
    exact h.conserve

/-- One community-card deal does not touch roster, pot, bet or phase. -/
theorem dealOneCommunity_fields (e : Engine) :
    (dealOneCommunity e).gameState.players = e.gameState.players ∧
    (dealOneCommunity e).gameState.pot = e.gameState.pot ∧
    (dealOneCommunity e).gameState.currentBet = e.gameState.currentBet ∧
    (dealOneCommunity e).gameState.phase = e.gameState.phase := by
  rw [dealOneCommunity]
  split
  · rcases hpc : popCard e.deck with ⟨oc, deck1⟩
    cases oc <;> exact ⟨rfl, rfl, rfl, rfl⟩
  · exact ⟨rfl, rfl, rfl, rfl⟩

/-- The community-deal loop does not touch roster, pot, bet or phase. -/
theorem foldl_dealOne_fields :
    ∀ (l : List Nat) (e : Engine),
    ((l.foldl (fun e1 _ => dealOneCommunity e1) e).gameState.players
      = e.gameState.players) ∧
    ((l.foldl (fun e1 _ => dealOneCommunity e1) e).gameState.pot
      = e.gameState.pot) ∧
    ((l.foldl (fun e1 _ => dealOneCommunity e1) e).gameState.currentBet
      = e.gameState.currentBet) ∧
    ((l.foldl (fun e1 _ => dealOneCommunity e1) e).gameState.phase
      = e.gameState.phase)
  | [], _ => ⟨rfl, rfl, rfl, rfl⟩
  | _ :: t, e => by
    have h1 := dealOneCommunity_fields e
    have h2 := foldl_dealOne_fields t (dealOneCommunity e)
    exact ⟨h2.1.trans h1.1, h2.2.1.trans h1.2.1, h2.2.2.1.trans h1.2.2.1,
      h2.2.2.2.trans h1.2.2.2⟩

/-- `dealCommunityCards` does not touch roster, pot, bet or phase. -/
theorem dealCommunityCards_fields (n : Nat) (e : Engine) :
    ((dealCommunityCards n e).gameState.players = e.gameState.players) ∧
    ((dealCommunityCards n e).gameState.pot = e.gameState.pot) ∧
    ((dealCommunityCards n e).gameState.currentBet = e.gameState.currentBet) ∧
    ((dealCommunityCards n e).gameState.phase = e.gameState.phase) :=
  foldl_dealOne_fields (List.range n) e

/-- A non-river, non-resolving `advancePhase` keeps the invariant. -/
theorem chipInv_advance (S : ℚ) (ev : EvalFn) (e : Engine)
    (h : ChipInv S e.gameState) (hph : e.gameState.phase ≠ Phase.river)
    (hel : someEligible e.gameState) :
    ChipInv S (advancePhase ev e).gameState := by
  have h1 : ChipInv S (resetRound e.gameState) := chipInv_resetRound S e.gameState h
  have hel1 : someEligible (resetRound e.gameState) :=
    someEligible_resetRound e.gameState hel
  have main : ∀ (k : Nat) (ph : Phase),
      ChipInv S (setNextPlayer ev
        (dealCommunityCards k
          { e with gameState := { resetRound e.gameState with phase := ph } }).gameState) := by
    intro k ph
    have hf := dealCommunityCards_fields k
      { e with gameState := { resetRound e.gameState with phase := ph } }
    have h2 : ChipInv S (dealCommunityCards k
        { e with gameState := { resetRound e.gameState with phase := ph } }).gameState :=
      ChipInv.congr S (resetRound e.gameState) _ h1 hf.1 hf.2.1 hf.2.2.1
    have hel2 : someEligible (dealCommunityCards k
        { e with gameState := { resetRound e.gameState with phase := ph } }).gameState :=
      someEligible_congr (resetRound e.gameState) _ hf.1 hel1
    exact chipInv_next S ev _ h2 hel2
  rw [advancePhase]
  dsimp only
  cases hcase : (resetRound e.gameState).phase with
  | preflop => exact main 3 Phase.flop
  | flop => exact main 1 Phase.turn
  | turn => exact main 1 Phase.river
  | river => exact absurd hcase hph
  | waiting => exact chipInv_next S ev _ h1 hel1
  | showdown => exact chipInv_next S ev _ h1 hel1
  | ended => exact chipInv_next S ev _ h1 hel1

end ConservationPhases

section ConservationStart

/-- The per-hand reset keeps the chip total. -/
theorem sumChips_resetForHand (gs : GameState) :
    sumChips (resetForHand gs) = sumChips gs := by
  rw [sumChips, sumChips, resetForHand]
  dsimp only
  rw [List.map_map]
  exact congrArg List.sum (List.map_congr_left fun q _ => rfl)

/-- The per-hand reset zeroes the bet total. -/
theorem sumBets_resetForHand (gs : GameState) : sumBets (resetForHand gs) = 0 := by
  rw [sumBets, resetForHand]
  dsimp only
  rw [List.map_map]
  have hcongr : List.map ((fun p => p.currentBet) ∘
      fun p : Player =>
        { p with
          cards := []
          currentBet := 0
          folded := false
          allIn := false
          hasActed := false
          isDealer := false
          isSmallBlind := false
          isBigBlind := false }) gs.players =
      List.map (fun _ : Player => (0 : ℚ)) gs.players :=
    List.map_congr_left fun q _ => rfl
  rw [hcongr]
  simp

/-- The per-hand reset establishes the invariant at the stack total. -/
theorem chipInv_resetForHand (gs : GameState)
    (hchips : ∀ p ∈ gs.players, 0 ≤ p.chips) :
    ChipInv (sumChips gs) (resetForHand gs) := by
  constructor
  · intro q hq
    rw [resetForHand] at hq
    dsimp only at hq
    obtain ⟨q0, hq0, rfl⟩ := List.mem_map.mp hq
    exact hchips q0 hq0
  · intro q hq
    rw [resetForHand] at hq
    dsimp only at hq
    obtain ⟨q0, hq0, rfl⟩ := List.mem_map.mp hq
    exact le_refl 0
  · exact le_refl 0
  · rw [sumBets_resetForHand]
    exact le_refl 0
  · show (0 : ℚ) + sumChips (resetForHand gs) = sumChips gs
    rw [sumChips_resetForHand]
    ring

/-- `rotateDealer` only touches flags, so it keeps the invariant. -/
theorem chipInv_rotateDealer (S : ℚ) (gs : GameState) (h : ChipInv S gs) :
    ChipInv S (rotateDealer gs) := by
  by_cases hlen : (activeIdx gs).length < 2
  · rw [rotateDealer]
    dsimp only
    rw [if_pos hlen]
    exact h
  · rw [rotateDealer]
    dsimp only
    rw [if_neg hlen]
    set di := (activeIdx gs).getD ((gs.dealerPosition + 1) % (activeIdx gs).length) 0
      with hdi
    set ps1 := gs.players.set di { gs.players.getD di defPlayer with isDealer := true }
      with hps1
    set si := (activeIdx gs).getD
      (((gs.dealerPosition + 1) % (activeIdx gs).length + 1) % (activeIdx gs).length) 0
      with hsi
    set ps2 := ps1.set si { ps1.getD si defPlayer with isSmallBlind := true } with hps2
    set bi := (activeIdx gs).getD
      (((gs.dealerPosition + 1) % (activeIdx gs).length + 2) % (activeIdx gs).length) 0
      with hbi
    set ps3 := ps2.set bi { ps2.getD bi defPlayer with isBigBlind := true } with hps3
    refine ChipInv.update S gs _ h rfl rfl ?_ ?_ ?_
    · show (ps3.map (fun p => p.chips)).sum = (gs.players.map (fun p => p.chips)).sum
      rw [hps3,
        sum_map_set_eq (fun q => q.chips) ps2 bi
          { ps2.getD bi defPlayer with isBigBlind := true } rfl,
        hps2,
        sum_map_set_eq (fun q => q.chips) ps1 si
          { ps1.getD si defPlayer with isSmallBlind := true } rfl,
        hps1,
        sum_map_set_eq (fun q => q.chips) gs.players di
          { gs.players.getD di defPlayer with isDealer := true } rfl]
    · show (ps3.map (fun p => p.currentBet)).sum =
        (gs.players.map (fun p => p.currentBet)).sum
      rw [hps3,
        sum_map_set_eq (fun q => q.currentBet) ps2 bi
          { ps2.getD bi defPlayer with isBigBlind := true } rfl,
        hps2,
        sum_map_set_eq (fun q => q.currentBet) ps1 si
          { ps1.getD si defPlayer with isSmallBlind := true } rfl,
        hps1,
        sum_map_set_eq (fun q => q.currentBet) gs.players di
          { gs.players.getD di defPlayer with isDealer := true } rfl]
    · intro q hq
      rw [hps3] at hq
      obtain ⟨q1, hq1, hc1, hb1⟩ := mem_set_shape _ _ _ q hq ⟨rfl, rfl⟩
      rw [hps2] at hq1
      obtain ⟨q2, hq2, hc2, hb2⟩ := mem_set_shape _ _ _ q1 hq1 ⟨rfl, rfl⟩
      rw [hps1] at hq2
      obtain ⟨q3, hq3, hc3, hb3⟩ := mem_set_shape _ _ _ q2 hq2 ⟨rfl, rfl⟩
      exact ⟨q3, hq3, by rw [hc1, hc2, hc3], by rw [hb1, hb2, hb3]⟩

/-- `rotateDealer` keeps the blind sizes. -/
theorem rotateDealer_blinds (gs : GameState) :
    (rotateDealer gs).smallBlind = gs.smallBlind ∧
    (rotateDealer gs).bigBlind = gs.bigBlind := by
  rw [rotateDealer]
  dsimp only
  split
  · exact ⟨rfl, rfl⟩
  · exact ⟨rfl, rfl⟩

/-- Members of `activeIdx` are in range. -/
theorem mem_activeIdx_lt (gs : GameState) (i : Nat) (h : i ∈ activeIdx gs) :
    i < gs.players.length := by
  rw [activeIdx] at h
  exact List.mem_range.mp (List.mem_filter.mp h).1

/-- Posting a blind from a seat in range keeps the invariant. -/
theorem chipInv_postBlindAt (S : ℚ) (gs : GameState) (i : Nat) (b : ℚ)
    (h : ChipInv S gs) (hi : i < gs.players.length) (hb : 0 ≤ b) :
    ChipInv S (postBlindAt gs i b) := by
  rw [postBlindAt]
  dsimp only
  set p := gs.players.getD i defPlayer with hp
  have hpmem : p ∈ gs.players := getD_mem_of_lt _ _ _ hi
  have hpc : 0 ≤ p.chips := h.chips_nonneg p hpmem
  have hpb : 0 ≤ p.currentBet := h.bets_nonneg p hpmem
  have hamt0 : 0 ≤ min b p.chips := le_min hb hpc
  have hamtle : min b p.chips ≤ p.chips := min_le_right _ _
  have key : ∀ p2 : Player, p2.chips = p.chips - min b p.chips →
      p2.currentBet = min b p.chips →
      ChipInv S { gs with players := gs.players.set i p2, pot := gs.pot + min b p.chips } := by
    intro p2 hc2 hb2
    constructor
    · intro q hq
      rcases List.mem_or_eq_of_mem_set hq with hmem | rfl
      · exact h.chips_nonneg q hmem
      · rw [hc2]; linarith
    · intro q hq
      rcases List.mem_or_eq_of_mem_set hq with hmem | rfl
      · exact h.bets_nonneg q hmem
      · rw [hb2]; exact hamt0
    · exact h.curBet_nonneg
    · show ((gs.players.set i p2).map (fun q => q.currentBet)).sum ≤
        gs.pot + min b p.chips
      rw [sum_map_set (fun q => q.currentBet) gs.players i p2 hi, ← hp, hb2]
      have hle := h.bets_le_pot
      rw [sumBets] at hle
      linarith
    · show gs.pot + min b p.chips +
        ((gs.players.set i p2).map (fun q => q.chips)).sum = S
      rw [sum_map_set (fun q => q.chips) gs.players i p2 hi, ← hp, hc2]
      have hcons := h.conserve
      rw [sumChips] at hcons
      linarith
  by_cases hz : p.chips - min b p.chips = 0
  · rw [if_pos hz]
    exact key _ rfl rfl
  · rw [if_neg hz]
    exact key _ rfl rfl

/-- Overriding the bet to match with a nonnegative value keeps the
invariant. -/
theorem chipInv_setCurBet (S : ℚ) (gs : GameState) (h : ChipInv S gs) (c : ℚ)
    (hc : 0 ≤ c) : ChipInv S { gs with currentBet := c } := by
  constructor
  · exact h.chips_nonneg
  · exact h.bets_nonneg
  · exact hc
  · exact h.bets_le_pot
  · exact h.conserve

/-- `postBlinds` keeps the invariant when the blind sizes are
nonnegative. -/
theorem chipInv_postBlinds (S : ℚ) (gs : GameState) (h : ChipInv S gs)
    (hsb : 0 ≤ gs.smallBlind) (hbb : 0 ≤ gs.bigBlind) :
    ChipInv S (postBlinds gs) := by
  rw [postBlinds]
  dsimp only
  cases hf1 : (activeIdx gs).find?
      (fun i => (gs.players.getD i defPlayer).isSmallBlind) with
  | none =>
    cases hf2 : (activeIdx gs).find?
        (fun i => (gs.players.getD i defPlayer).isBigBlind) with
    | none => exact h
    | some i =>
      have hi := mem_activeIdx_lt gs i (List.mem_of_find?_eq_some hf2)
      have hc : 0 ≤ (gs.players.getD i defPlayer).chips :=
        h.chips_nonneg _ (getD_mem_of_lt _ _ _ hi)
      exact chipInv_setCurBet S _ (chipInv_postBlindAt S gs i gs.bigBlind h hi hbb)
        _ (le_min hbb hc)
  | some j =>
    have hj := mem_activeIdx_lt gs j (List.mem_of_find?_eq_some hf1)
    have h1 : ChipInv S (postBlindAt gs j gs.smallBlind) :=
      chipInv_postBlindAt S gs j gs.smallBlind h hj hsb
    have hlen : (postBlindAt gs j gs.smallBlind).players.length =
        gs.players.length := by
      rw [postBlindAt]
      dsimp only
      split <;> simp
    cases hf2 : (activeIdx gs).find? (fun i =>
        ((postBlindAt gs j gs.smallBlind).players.getD i defPlayer).isBigBlind) with
    | none => exact h1
    | some i =>
      have hi : i < (postBlindAt gs j gs.smallBlind).players.length := by
        rw [hlen]
        exact mem_activeIdx_lt gs i (List.mem_of_find?_eq_some hf2)
      have hc : 0 ≤ ((postBlindAt gs j gs.smallBlind).players.getD i defPlayer).chips :=
        h1.chips_nonneg _ (getD_mem_of_lt _ _ _ hi)
      exact chipInv_setCurBet S _
        (chipInv_postBlindAt S _ i _ h1 hi hbb) _ (le_min hbb hc)

end ConservationStart

section ConservationDeal

/-- One hole-card deal keeps chips and bets. -/
theorem dealStep_shape (st : List Card × List Player) (i : Nat) :
    (((dealStep st i).2.map (fun q => q.chips)).sum =
      (st.2.map (fun q => q.chips)).sum) ∧
    (((dealStep st i).2.map (fun q => q.currentBet)).sum =
      (st.2.map (fun q => q.currentBet)).sum) ∧
    (∀ q ∈ (dealStep st i).2, ∃ q0 ∈ st.2,
      q.chips = q0.chips ∧ q.currentBet = q0.currentBet) := by
  rw [dealStep]
  split
  · rcases hpc : popCard st.1 with ⟨oc, deck1⟩
    cases oc with
    | some c =>
      refine ⟨sum_map_set_eq (fun q => q.chips) st.2 i
          { st.2.getD i defPlayer with
            cards := (st.2.getD i defPlayer).cards ++ [c] } rfl,
        sum_map_set_eq (fun q => q.currentBet) st.2 i
          { st.2.getD i defPlayer with
            cards := (st.2.getD i defPlayer).cards ++ [c] } rfl, ?_⟩
      intro q hq
      exact mem_set_shape _ _ _ q hq ⟨rfl, rfl⟩
    | none => exact ⟨rfl, rfl, fun q hq => ⟨q, hq, rfl, rfl⟩⟩
  · exact ⟨rfl, rfl, fun q hq => ⟨q, hq, rfl, rfl⟩⟩

/-- The dealing loop keeps chips and bets. -/
theorem foldl_dealStep_shape :
    ∀ (l : List Nat) (st : List Card × List Player),
    (((l.foldl dealStep st).2.map (fun q => q.chips)).sum =
      (st.2.map (fun q => q.chips)).sum) ∧
    (((l.foldl dealStep st).2.map (fun q => q.currentBet)).sum =
      (st.2.map (fun q => q.currentBet)).sum) ∧
    (∀ q ∈ (l.foldl dealStep st).2, ∃ q0 ∈ st.2,
      q.chips = q0.chips ∧ q.currentBet = q0.currentBet)
  | [], st => ⟨rfl, rfl, fun q hq => ⟨q, hq, rfl, rfl⟩⟩
  | x :: t, st => by
    have h1 := dealStep_shape st x
    have h2 := foldl_dealStep_shape t (dealStep st x)
    refine ⟨h2.1.trans h1.1, h2.2.1.trans h1.2.1, ?_⟩
    intro q hq
    obtain ⟨q1, hq1, hc1, hb1⟩ := h2.2.2 q hq
    obtain ⟨q0, hq0, hc0, hb0⟩ := h1.2.2 q1 hq1
    exact ⟨q0, hq0, hc1.trans hc0, hb1.trans hb0⟩

/-- `dealHoleCards` keeps the invariant. -/
theorem chipInv_dealHoleCards (S : ℚ) (rng : Nat → Nat) (e : Engine)
    (h : ChipInv S e.gameState) : ChipInv S (dealHoleCards rng e).gameState := by
  rw [dealHoleCards]
  dsimp only
  have h1 := foldl_dealStep_shape (activeIdx e.gameState)
    (createDeck rng, e.gameState.players)
  have h2 := foldl_dealStep_shape (activeIdx e.gameState)
    ((activeIdx e.gameState).foldl dealStep (createDeck rng, e.gameState.players))
  refine ChipInv.update S e.gameState _ h rfl rfl ?_ ?_ ?_
  · exact h2.1.trans h1.1
  · exact h2.2.1.trans h1.2.1
  · intro q hq
    obtain ⟨q1, hq1, hc1, hb1⟩ := h2.2.2 q hq
    obtain ⟨q0, hq0, hc0, hb0⟩ := h1.2.2 q1 hq1
    exact ⟨q0, hq0, hc1.trans hc0, hb1.trans hb0⟩

/-- `startNewHand` establishes the invariant at the pre-hand stack total,
provided stacks and blind sizes are nonnegative and somebody can still
act after the blinds are posted and the cards dealt. -/
theorem chipInv_start (rng : Nat → Nat) (ev : EvalFn) (e : Engine)
    (hchips : ∀ p ∈ e.gameState.players, 0 ≤ p.chips)
    (hsb : 0 ≤ e.gameState.smallBlind) (hbb : 0 ≤ e.gameState.bigBlind)
    (hel : someEligible (startPre rng e).gameState) :
    ChipInv (sumChips e.gameState) (startNewHand rng ev e).gameState := by
  have h0 : ChipInv (sumChips e.gameState) (resetForHand e.gameState) :=
    chipInv_resetForHand e.gameState hchips
  have h1 : ChipInv (sumChips e.gameState)
      (rotateDealer (resetForHand e.gameState)) :=
    chipInv_rotateDealer _ _ h0
  have hbl := rotateDealer_blinds (resetForHand e.gameState)
  have h2 : ChipInv (sumChips e.gameState)
      (postBlinds (rotateDealer (resetForHand e.gameState))) := by
    refine chipInv_postBlinds _ _ h1 ?_ ?_
    · rw [hbl.1]; exact hsb
    · rw [hbl.2]; exact hbb
  have h3 : ChipInv (sumChips e.gameState) (startPre rng e).gameState := by
    rw [startPre]
    exact chipInv_dealHoleCards _ rng _ h2
  rw [startNewHand]
  dsimp only
  exact chipInv_next _ ev _ h3 hel

end ConservationDeal

section ConservationTrace

/-- One externally triggered engine transition while a hand runs: the host
relays a player action, advances the phase, or moves the turn. -/
inductive Step
  | fold (pid : String)
  | check (pid : String)
  | call (pid : String)
  | raiseBy (pid : String) (amt : ℚ)
  | advance
  | next

/-- Execute one step against the engine. -/
def execStep (ev : EvalFn) (e : Engine) : Step → Engine
  | .fold pid => { e with gameState := (fold pid e.gameState).2 }
  | .check pid => { e with gameState := (check pid e.gameState).2 }
  | .call pid => { e with gameState := (call pid e.gameState).2 }
  | .raiseBy pid amt => { e with gameState := (raise pid amt e.gameState).2 }
  | .advance => advancePhase ev e
  | .next => { e with gameState := setNextPlayer ev e.gameState }

/-- Execute a step sequence, left to right. -/
def execTrace (ev : EvalFn) : List Step → Engine → Engine
  | [], e => e
  | s :: rest, e => execTrace ev rest (execStep ev e s)

/-- Side condition under which a step neither resolves the hand nor takes
chips out of circulation: raises are by nonnegative amounts, and phase
advances and turn moves happen away from the river while an eligible seat
remains. -/
def stepOk (s : Step) (e : Engine) : Prop :=
  match s with
  | .raiseBy _ amt => 0 ≤ amt
  | .advance => e.gameState.phase ≠ Phase.river ∧ someEligible e.gameState
  | .next => someEligible e.gameState
  | _ => True

instance stepOkDec (s : Step) (e : Engine) : Decidable (stepOk s e) := by
  cases s <;> dsimp only [stepOk] <;> infer_instance

/-- Every step of the trace satisfies its side condition at the state it
runs from. -/
def TraceOk (ev : EvalFn) : List Step → Engine → Prop
  | [], _ => True
  | s :: rest, e => stepOk s e ∧ TraceOk ev rest (execStep ev e s)

instance traceOkDec (ev : EvalFn) : (l : List Step) → (e : Engine) →
    Decidable (TraceOk ev l e)
  | [], _ => .isTrue trivial
  | s :: rest, e =>
    @instDecidableAnd _ _ (stepOkDec s e) (traceOkDec ev rest (execStep ev e s))

/-- Any single admissible step preserves the chip-accounting invariant. -/
theorem chipInv_step (S : ℚ) (ev : EvalFn) (e : Engine) (s : Step)
    (h : ChipInv S e.gameState) (hok : stepOk s e) :
    ChipInv S (execStep ev e s).gameState := by
  cases s with
  | fold pid => exact chipInv_fold S pid _ h
  | check pid => exact chipInv_check S pid _ h
  | call pid => exact chipInv_call S pid _ h
  | raiseBy pid amt => exact chipInv_raise S pid amt _ hok h
  | advance => exact chipInv_advance S ev e h hok.1 hok.2
  | next => exact chipInv_next S ev _ h hok

/-- Any admissible trace preserves the chip-accounting invariant. -/
theorem chipInv_trace (S : ℚ) (ev : EvalFn) : ∀ (steps : List Step) (e : Engine),
    ChipInv S e.gameState → TraceOk ev steps e →
    ChipInv S (execTrace ev steps e).gameState
  | [], _, h, _ => h
  | s :: rest, e, h, htr =>
    chipInv_trace S ev rest (execStep ev e s)
      (chipInv_step S ev e s h htr.1) htr.2

end ConservationTrace

section PayoutLemmas

/-- Dropping elements of a nonnegative list can only lower the sum. -/
theorem sum_map_filter_le {α : Type u1} : ∀ (l : List α) (q : α → Bool)
    (f : α → ℚ), (∀ x ∈ l, 0 ≤ f x) →
    ((l.filter q).map f).sum ≤ (l.map f).sum
  | [], _, _, _ => le_refl 0
  | x :: t, q, f, h => by
    have ht := sum_map_filter_le t q f fun y hy => h y (List.mem_cons_of_mem x hy)
    have hx := h x (List.mem_cons_self x t)
    rw [List.filter_cons]
    by_cases hq : q x = true
    · rw [if_pos hq]
      simp only [List.map_cons, List.sum_cons]
      linarith
    · rw [if_neg hq]
      simp only [List.map_cons, List.sum_cons]
      linarith

/-- Summing a function of `getD` over the index range is summing over the
list. -/
theorem map_getD_range {α : Type u1} {β : Type u2} : ∀ (l : List α) (d : α)
    (g : α → β),
    ((List.range l.length).map fun i => g (l.getD i d)) = l.map g
  | [], _, _ => rfl
  | x :: t, d, g => by
    rw [List.length_cons, List.range_succ_eq_map, List.map_cons, List.map_map,
      List.map_cons]
    refine congrArg (g x :: ·) ?_
    rw [← map_getD_range t d g]
    exact List.map_congr_left fun i _ => rfl

/-- Writing back the element already there is the identity. -/
theorem set_getD_self {α : Type u1} : ∀ (l : List α) (i : Nat) (d : α),
    i < l.length → l.set i (l.getD i d) = l
  | [], i, _, h => absurd h (by simp)
  | _ :: _, 0, _, _ => rfl
  | x :: t, k + 1, d, h => by
    have hk : k < t.length := by simpa using h
    show x :: t.set k (t.getD k d) = x :: t
    rw [set_getD_self t k d hk]

/-- Members of the non-folded active index list are in range. -/
theorem mem_activeNonfoldedIdx_lt (gs : GameState) (i : Nat)
    (h : i ∈ activeNonfoldedIdx gs) : i < gs.players.length :=
  mem_activeIdx_lt gs i (List.mem_of_mem_filter h)

/-- The remaining pot after the side-pot loop is the starting pot minus
the side-pot amounts pushed. -/
theorem potsGo_rem : ∀ (l : List (String × ℚ)) (prev rem : ℚ),
    (potsGo l prev rem).2 =
      rem - (((potsGo l prev rem).1).map (fun sp => sp.amount)).sum
  | [], _, rem => by simp [potsGo]
  | pb :: rest, prev, rem => by
    rw [potsGo]
    dsimp only
    split
    · split
      · dsimp only
        rw [potsGo_rem rest pb.2 _]
        simp only [List.map_cons, List.sum_cons]
        ring
      · exact potsGo_rem rest pb.2 rem
    · exact potsGo_rem rest pb.2 rem

/-- Over an ascending list of bets bounded below by `prev`, the side-pot
amounts sum to the bets' total minus `prev` per contributor. -/
theorem potsGo_amounts : ∀ (l : List (String × ℚ)) (prev rem : ℚ),
    l.Pairwise betLe → (∀ x ∈ l, prev ≤ x.2) →
    (((potsGo l prev rem).1).map (fun sp => sp.amount)).sum =
      (l.map (fun x => x.2)).sum - (l.length : ℚ) * prev
  | [], _, _, _, _ => by simp [potsGo]
  | pb :: rest, prev, rem, hsort, hbound => by
    have hrest : rest.Pairwise betLe := (List.pairwise_cons.mp hsort).2
    have hhead : ∀ x ∈ rest, pb.2 ≤ x.2 :=
      fun x hx => (List.pairwise_cons.mp hsort).1 x hx
    have hprev : prev ≤ pb.2 := hbound pb (List.mem_cons_self pb rest)
    rw [potsGo]
    dsimp only
    split
    · split
      · dsimp only
        simp only [List.map_cons, List.sum_cons]
        rw [potsGo_amounts rest pb.2 _ hrest hhead]
        simp only [List.length_map, List.length_cons]
        push_cast
        ring
      · next hdiff hneg =>
        exfalso
        apply hneg
        apply mul_pos hdiff
        simp only [List.length_map, List.length_cons]
        positivity
    · next hdiff =>
      have heq : pb.2 = prev :=
        le_antisymm (by linarith [not_lt.mp hdiff]) hprev
      rw [potsGo_amounts rest pb.2 _ hrest hhead]
      simp only [List.map_cons, List.sum_cons, List.length_cons]
      rw [heq]
      push_cast
      ring

/-- Every side pot the loop pushes records some contributor of the list as
eligible. -/
theorem potsGo_elig : ∀ (l : List (String × ℚ)) (prev rem : ℚ),
    ∀ sp ∈ (potsGo l prev rem).1, ∃ pb ∈ l, pb.1 ∈ sp.eligiblePlayers
  | [], _, _ => by simp [potsGo]
  | pb :: rest, prev, rem => by
    intro sp hsp
    rw [potsGo] at hsp
    dsimp only at hsp
    split at hsp
    · split at hsp
      · dsimp only at hsp
        rcases List.mem_cons.mp hsp with rfl | hmem
        · exact ⟨pb, List.mem_cons_self pb rest,
            List.mem_map.mpr ⟨pb, List.mem_cons_self pb rest, rfl⟩⟩
        · obtain ⟨pb2, hpb2, hin⟩ := potsGo_elig rest pb.2 _ sp hmem
          exact ⟨pb2, List.mem_cons_of_mem pb hpb2, hin⟩
      · obtain ⟨pb2, hpb2, hin⟩ := potsGo_elig rest pb.2 _ sp hsp
        exact ⟨pb2, List.mem_cons_of_mem pb hpb2, hin⟩
    · obtain ⟨pb2, hpb2, hin⟩ := potsGo_elig rest pb.2 _ sp hsp
      exact ⟨pb2, List.mem_cons_of_mem pb hpb2, hin⟩

/-- `playerBets` is a permutation of the non-folded active players'
`(id, bet)` pairs. -/
theorem playerBets_perm (gs : GameState) :
    (playerBets gs).Perm ((activeNonfoldedIdx gs).map fun i =>
      ((gs.players.getD i defPlayer).id,
       (gs.players.getD i defPlayer).currentBet)) := by
  rw [playerBets]
  exact List.perm_insertionSort betLe _

/-- `playerBets` is ascending by bet. -/
theorem playerBets_sorted (gs : GameState) : (playerBets gs).Pairwise betLe := by
  rw [playerBets]
  exact List.sorted_insertionSort betLe _

/-- The bets recorded in `playerBets` sum to the non-folded active
players' current bets. -/
theorem playerBets_sum (gs : GameState) :
    ((playerBets gs).map (fun x => x.2)).sum =
      ((activeNonfoldedIdx gs).map
        (fun i => (gs.players.getD i defPlayer).currentBet)).sum := by
  rw [((playerBets_perm gs).map (fun x => x.2)).sum_eq, List.map_map]
  exact congrArg List.sum (List.map_congr_left fun i _ => rfl)

/-- With nonnegative bets on the roster, every `playerBets` entry is
nonnegative. -/
theorem playerBets_nonneg (gs : GameState)
    (h : ∀ p ∈ gs.players, 0 ≤ p.currentBet) :
    ∀ x ∈ playerBets gs, 0 ≤ x.2 := by
  intro x hx
  have hx2 := (playerBets_perm gs).mem_iff.mp hx
  obtain ⟨i, hi, rfl⟩ := List.mem_map.mp hx2
  exact h _ (getD_mem_of_lt _ _ _ (mem_activeNonfoldedIdx_lt gs i hi))

/-- The non-folded active players' bets are at most the whole bet total
(bets being nonnegative). -/
theorem sum_bets_activeNonfolded_le (gs : GameState)
    (h : ∀ p ∈ gs.players, 0 ≤ p.currentBet) :
    ((activeNonfoldedIdx gs).map
      (fun i => (gs.players.getD i defPlayer).currentBet)).sum ≤ sumBets gs := by
  have h1 : ∀ x ∈ List.range gs.players.length,
      0 ≤ (gs.players.getD x defPlayer).currentBet := fun x hx =>
    h _ (getD_mem_of_lt _ _ _ (List.mem_range.mp hx))
  rw [activeNonfoldedIdx, activeIdx]
  have step1 := sum_map_filter_le
    (((List.range gs.players.length).filter fun i =>
      let p := gs.players.getD i defPlayer
      decide (0 < p.chips) || decide (0 < p.currentBet)))
    (fun i => !(gs.players.getD i defPlayer).folded)
    (fun i => (gs.players.getD i defPlayer).currentBet)
    (fun x hx => h1 x (List.mem_of_mem_filter hx))
  have step2 := sum_map_filter_le (List.range gs.players.length)
    (fun i =>
      let p := gs.players.getD i defPlayer
      decide (0 < p.chips) || decide (0 < p.currentBet))
    (fun i => (gs.players.getD i defPlayer).currentBet) h1
  have step3 : ((List.range gs.players.length).map
      (fun i => (gs.players.getD i defPlayer).currentBet)).sum = sumBets gs := by
    rw [sumBets]
    exact congrArg List.sum
      (map_getD_range gs.players defPlayer (fun p => p.currentBet))
  calc ((((List.range gs.players.length).filter fun i =>
          let p := gs.players.getD i defPlayer
          decide (0 < p.chips) || decide (0 < p.currentBet)).filter fun i =>
            !(gs.players.getD i defPlayer).folded).map
          (fun i => (gs.players.getD i defPlayer).currentBet)).sum
      ≤ (((List.range gs.players.length).filter fun i =>
          let p := gs.players.getD i defPlayer
          decide (0 < p.chips) || decide (0 < p.currentBet)).map
          (fun i => (gs.players.getD i defPlayer).currentBet)).sum := step1
    _ ≤ ((List.range gs.players.length).map
          (fun i => (gs.players.getD i defPlayer).currentBet)).sum := step2
    _ = sumBets gs := step3

end PayoutLemmas

section PayoutFold

/-- `addChips` keeps the roster length. -/
theorem addChips_length (ps : List Player) (i : Nat) (amt : ℚ) :
    (addChips ps i amt).length = ps.length := by
  rw [addChips, List.length_set]

/-- `addChips` keeps the ids. -/
theorem addChips_map_id (ps : List Player) (i : Nat) (amt : ℚ) :
    (addChips ps i amt).map (fun p => p.id) = ps.map (fun p => p.id) := by
  rw [addChips]
  by_cases hi : i < ps.length
  · rw [List.map_set]
    have hv : ({ ps.getD i defPlayer with
        chips := (ps.getD i defPlayer).chips + amt } : Player).id =
        (ps.map (fun p => p.id)).getD i "" := by
      rw [getD_map_of_lt (fun p => p.id) ps i defPlayer "" hi]
    rw [hv]
    exact set_getD_self _ _ _ (by simpa using hi)
  · rw [List.set_eq_of_length_le (Nat.le_of_not_lt hi)]

/-- `addChips` at an in-range index adds exactly the credited amount to
the chip total. -/
theorem addChips_sum (ps : List Player) (i : Nat) (amt : ℚ)
    (hi : i < ps.length) :
    ((addChips ps i amt).map (fun p => p.chips)).sum =
      (ps.map (fun p => p.chips)).sum + amt := by
  rw [addChips, sum_map_set (fun p => p.chips) ps i _ hi]
  dsimp only
  ring

/-- Crediting a share to each index of a list keeps the roster length. -/
theorem foldl_addChips_length : ∀ (ws : List Nat) (ps : List Player)
    (share : ℚ),
    (ws.foldl (fun ps2 i => addChips ps2 i share) ps).length = ps.length
  | [], _, _ => rfl
  | w :: t, ps, share =>
    (foldl_addChips_length t (addChips ps w share) share).trans
      (addChips_length ps w share)

/-- Crediting a share to each index of a list keeps the ids. -/
theorem foldl_addChips_map_id : ∀ (ws : List Nat) (ps : List Player)
    (share : ℚ),
    (ws.foldl (fun ps2 i => addChips ps2 i share) ps).map (fun p => p.id) =
      ps.map (fun p => p.id)
  | [], _, _ => rfl
  | w :: t, ps, share =>
    (foldl_addChips_map_id t (addChips ps w share) share).trans
      (addChips_map_id ps w share)

/-- Crediting a share to each of `ws.length` in-range indices adds
`ws.length * share` to the chip total. -/
theorem foldl_addChips_sum : ∀ (ws : List Nat) (ps : List Player)
    (share : ℚ), (∀ w ∈ ws, w < ps.length) →
    ((ws.foldl (fun ps2 i => addChips ps2 i share) ps).map
      (fun p => p.chips)).sum =
      (ps.map (fun p => p.chips)).sum + (ws.length : ℚ) * share
  | [], ps, share, _ => by simp
  | w :: t, ps, share, hw => by
    have hlen : (addChips ps w share).length = ps.length :=
      addChips_length ps w share
    have h2 := foldl_addChips_sum t (addChips ps w share) share
      (fun x hx => by rw [hlen]; exact hw x (List.mem_cons_of_mem w hx))
    have h1 := addChips_sum ps w share (hw w (List.mem_cons_self w t))
    show ((t.foldl (fun ps2 i => addChips ps2 i share)
        (addChips ps w share)).map (fun p => p.chips)).sum = _
    rw [h2, h1, List.length_cons]
    push_cast
    ring

/-- Contract of the external hand evaluator: on a non-empty contender
list it returns a non-empty winner list drawn from the contenders. -/
def EvOK (ev : EvalFn) : Prop :=
  ∀ (gs : GameState) (l : List Nat), l ≠ [] → ev gs l ≠ [] ∧ ∀ i ∈ ev gs l, i ∈ l

/-- The take-first evaluator satisfies the contract. -/
theorem takeOneEval_ok : EvOK takeOneEval := by
  intro gs l hl
  cases l with
  | nil => exact absurd rfl hl
  | cons x t =>
    constructor
    · show [x] ≠ []
      simp
    · intro i hi
      show i ∈ x :: t
      rw [show takeOneEval gs (x :: t) = [x] from rfl] at hi
      rcases List.mem_singleton.mp hi with rfl
      exact List.mem_cons_self i t

/-- Awarding one side pot whose eligible set names a live contender adds
exactly the pot's amount to the chip total and changes nothing else about
length or ids. -/
theorem awardPot_sum (ev : EvalFn) (aIdx : List Nat) (g : GameState)
    (sp : SidePot) (hev : EvOK ev)
    (hlen : ∀ j ∈ aIdx, j < g.players.length)
    (hwit : ∃ j ∈ aIdx, (g.players.getD j defPlayer).id ∈ sp.eligiblePlayers) :
    ((awardPot ev aIdx g sp).players.map (fun p => p.chips)).sum =
      (g.players.map (fun p => p.chips)).sum + sp.amount ∧
    (awardPot ev aIdx g sp).players.length = g.players.length ∧
    (awardPot ev aIdx g sp).players.map (fun p => p.id) =
      g.players.map (fun p => p.id) ∧
    (awardPot ev aIdx g sp).pot = g.pot := by
  obtain ⟨j, hj, hjel⟩ := hwit
  have hjf : j ∈ aIdx.filter fun i =>
      sp.eligiblePlayers.contains (g.players.getD i defPlayer).id := by
    refine List.mem_filter.mpr ⟨hj, ?_⟩
    exact List.contains_iff_exists_mem_beq.mpr
      ⟨(g.players.getD j defPlayer).id, hjel, by simp⟩
  have hne : (aIdx.filter fun i =>
      sp.eligiblePlayers.contains (g.players.getD i defPlayer).id) ≠ [] :=
    List.ne_nil_of_mem hjf
  obtain ⟨hwne, hwsub⟩ := hev g _ hne
  have hwlt : ∀ w ∈ ev g (aIdx.filter fun i =>
      sp.eligiblePlayers.contains (g.players.getD i defPlayer).id),
      w < g.players.length := fun w hw =>
    hlen w (List.mem_of_mem_filter (hwsub w hw))
  have hnz : ((ev g (aIdx.filter fun i =>
      sp.eligiblePlayers.contains (g.players.getD i defPlayer).id)).length : ℚ)
      ≠ 0 := by
    exact_mod_cast List.length_pos.mpr hwne |>.ne'
  rw [awardPot]
  dsimp only
  refine ⟨?_, foldl_addChips_length _ _ _, foldl_addChips_map_id _ _ _, rfl⟩
  rw [foldl_addChips_sum _ _ _ hwlt, mul_comm, div_mul_cancel₀ sp.amount hnz]

/-- Folding `awardPot` over a pot list, each pot naming a live contender,
adds exactly the pots' total to the chip total. -/
theorem potFold_sum (ev : EvalFn) (hev : EvOK ev) (aIdx : List Nat)
    (idsRef : List String) (n : Nat) (hidx : ∀ j ∈ aIdx, j < n) :
    ∀ (pots : List SidePot) (g : GameState), g.players.length = n →
    g.players.map (fun p => p.id) = idsRef →
    (∀ sp ∈ pots, ∃ j ∈ aIdx, idsRef.getD j "" ∈ sp.eligiblePlayers) →
    ((pots.foldl (awardPot ev aIdx) g).players.map (fun p => p.chips)).sum =
      (g.players.map (fun p => p.chips)).sum +
        (pots.map (fun sp => sp.amount)).sum ∧
    (pots.foldl (awardPot ev aIdx) g).players.length = n ∧
    (pots.foldl (awardPot ev aIdx) g).players.map (fun p => p.id) = idsRef ∧
    (pots.foldl (awardPot ev aIdx) g).pot = g.pot
  | [], g, hn, hids, _ => by simp [hn, hids]
  | sp :: rest, g, hn, hids, hwits => by
    have hlen : ∀ j ∈ aIdx, j < g.players.length := fun j hj => by
      rw [hn]; exact hidx j hj
    have hwit0 : ∃ j ∈ aIdx,
        (g.players.getD j defPlayer).id ∈ sp.eligiblePlayers := by
      obtain ⟨j, hj, hjel⟩ := hwits sp (List.mem_cons_self sp rest)
      refine ⟨j, hj, ?_⟩
      have : idsRef.getD j "" = (g.players.getD j defPlayer).id := by
        rw [← hids]
        exact getD_map_of_lt (fun p => p.id) g.players j defPlayer "" (hlen j hj)
      rw [← this]
      exact hjel
    obtain ⟨hsum1, hlen1, hids1, hpot1⟩ :=
      awardPot_sum ev aIdx g sp hev hlen hwit0
    obtain ⟨hsum2, hlen2, hids2, hpot2⟩ := potFold_sum ev hev aIdx idsRef n hidx
      rest (awardPot ev aIdx g sp) (by rw [hlen1, hn]) (by rw [hids1, hids])
      (fun sp2 hsp2 => hwits sp2 (List.mem_cons_of_mem sp hsp2))
    show ((rest.foldl (awardPot ev aIdx) (awardPot ev aIdx g sp)).players.map
        (fun p => p.chips)).sum = _ ∧ _ ∧ _ ∧ _
    refine ⟨?_, hlen2, hids2, hpot2.trans hpot1⟩
    rw [hsum2, hsum1]
    simp only [List.map_cons, List.sum_cons]
    ring

end PayoutFold

section PayoutMain

/-- With the chip-accounting invariant in force, a live contender left and
an evaluator meeting its contract, `determineWinner` pays the whole pot
back out: the chip total afterwards is the conserved total `S`. -/
theorem determineWinner_payout (ev : EvalFn) (gs : GameState) (S : ℚ)
    (hInv : ChipInv S gs) (hact : activeNonfoldedIdx gs ≠ [])
    (hev : EvOK ev) : sumChips (determineWinner ev gs) = S := by
  rw [sumChips, determineWinner]
  dsimp only
  by_cases h1 : ((activeNonfoldedIdx gs).length == 1) = true
  · rw [if_pos h1]
    have hlen1 : (activeNonfoldedIdx gs).length = 1 := by simpa using h1
    have hmem : (activeNonfoldedIdx gs).getD 0 0 ∈ activeNonfoldedIdx gs :=
      getD_mem_of_lt _ _ _ (by omega)
    have hi : (activeNonfoldedIdx gs).getD 0 0 < gs.players.length :=
      mem_activeNonfoldedIdx_lt gs _ hmem
    rw [addChips_sum gs.players _ gs.pot hi]
    have hcons := hInv.conserve
    rw [sumChips] at hcons
    linarith
  · rw [if_neg h1]
    set aIdx := activeNonfoldedIdx gs with haidx
    set r := calculatePots gs with hr
    have hidx : ∀ j ∈ aIdx, j < gs.players.length := fun j hj =>
      mem_activeNonfoldedIdx_lt gs j hj
    have hsorted := playerBets_sorted gs
    have hbnn := playerBets_nonneg gs hInv.bets_nonneg
    have hamounts : ((r.1).map (fun sp => sp.amount)).sum =
        ((playerBets gs).map (fun x => x.2)).sum := by
      rw [hr, calculatePots]
      rw [potsGo_amounts (playerBets gs) 0 gs.pot hsorted hbnn]
      rw [mul_zero, sub_zero]
    have hrem : r.2 = gs.pot - ((r.1).map (fun sp => sp.amount)).sum := by
      rw [hr, calculatePots]
      exact potsGo_rem (playerBets gs) 0 gs.pot
    have hBle : ((playerBets gs).map (fun x => x.2)).sum ≤ gs.pot := by
      rw [playerBets_sum]
      have h2 := sum_bets_activeNonfolded_le gs hInv.bets_nonneg
      have h3 := hInv.bets_le_pot
      linarith
    have hwits : ∀ sp ∈ r.1, ∃ j ∈ aIdx,
        (gs.players.map (fun p => p.id)).getD j "" ∈ sp.eligiblePlayers := by
      intro sp hsp
      rw [hr, calculatePots] at hsp
      obtain ⟨pb, hpb, hin⟩ := potsGo_elig (playerBets gs) 0 gs.pot sp hsp
      have hpb2 := (playerBets_perm gs).mem_iff.mp hpb
      obtain ⟨j, hj, hjeq⟩ := List.mem_map.mp hpb2
      refine ⟨j, hj, ?_⟩
      have hgd : (gs.players.map (fun p => p.id)).getD j "" =
          (gs.players.getD j defPlayer).id :=
        getD_map_of_lt (fun p => p.id) gs.players j defPlayer "" (hidx j hj)
      have hfst : pb.1 = (gs.players.getD j defPlayer).id := by
        rw [← hjeq]
      rw [hgd, ← hfst]
      exact hin
    have hfold := potFold_sum ev hev aIdx (gs.players.map (fun p => p.id))
      gs.players.length hidx r.1 gs rfl rfl hwits
    have hcons := hInv.conserve
    rw [sumChips] at hcons
    by_cases h2 : 0 < r.2
    · rw [if_pos h2]
      dsimp only
      have hane : aIdx ≠ [] := hact
      obtain ⟨hwne, hwsub⟩ := hev (r.1.foldl (awardPot ev aIdx) gs) aIdx hane
      have hwlt : ∀ w ∈ ev (r.1.foldl (awardPot ev aIdx) gs) aIdx,
          w < (r.1.foldl (awardPot ev aIdx) gs).players.length := by
        intro w hw
        rw [hfold.2.1]
        exact hidx w (hwsub w hw)
      rw [foldl_addChips_sum _ _ _ hwlt, hfold.1]
      have hnz : ((ev (r.1.foldl (awardPot ev aIdx) gs) aIdx).length : ℚ) ≠ 0 := by
        exact_mod_cast (List.length_pos.mpr hwne).ne'
      rw [mul_comm, div_mul_cancel₀ r.2 hnz]
      linarith
    · rw [if_neg h2]
      rw [hfold.1]
      have hge : 0 ≤ r.2 := by
        rw [hrem, hamounts]
        linarith
      have h0 : r.2 = 0 := le_antisymm (le_of_not_lt h2) hge
      have hsum0 : ((r.1).map (fun sp => sp.amount)).sum = gs.pot := by
        rw [hamounts]
        rw [hrem, hamounts] at h0
        linarith
      rw [hsum0]
      linarith

end PayoutMain

section ChipConservation

/-- C1.  Chip conservation: start a hand from any table with nonnegative
stacks and blinds, play any admissible sequence of fold / check / call /
raise / phase-advance / turn-move steps, and resolve via
`determineWinner` with any contract-satisfying evaluator.  The chip total
after resolution equals the chip total immediately before
`startNewHand()` — blinds, calls and raises only move chips into the pot,
and `determineWinner` pays the accumulated pot back out exactly, with
exact arithmetic. -/
theorem chip_conservation (rng : Nat → Nat) (ev : EvalFn) (e : Engine)
    (steps : List Step)
    (hchips : ∀ p ∈ e.gameState.players, 0 ≤ p.chips)
    (hsb : 0 ≤ e.gameState.smallBlind) (hbb : 0 ≤ e.gameState.bigBlind)
    (hel : someEligible (startPre rng e).gameState)
    (hok : TraceOk ev steps (startNewHand rng ev e))
    (hact : activeNonfoldedIdx
      (execTrace ev steps (startNewHand rng ev e)).gameState ≠ [])
    (hev : EvOK ev) :
    sumChips (determineWinner ev
      (execTrace ev steps (startNewHand rng ev e)).gameState) =
      sumChips e.gameState := by
  have h1 := chipInv_start rng ev e hchips hsb hbb hel
  have h2 := chipInv_trace (sumChips e.gameState) ev steps
    (startNewHand rng ev e) h1 hok
  exact determineWinner_payout ev _ _ h2 hact hev

/-- The conservation theorem at a concrete table: the heads-up game, the
all-zero shuffle, the take-first evaluator, and the trace call B, raise A
by 5, call B. -/
theorem chip_conservation_witness :
    sumChips (determineWinner takeOneEval
      (execTrace takeOneEval [Step.call "B", Step.raiseBy "A" 5, Step.call "B"]
        (startNewHand zeroRng takeOneEval headsUpEngine)).gameState) =
      sumChips headsUpEngine.gameState :=
  chip_conservation zeroRng takeOneEval headsUpEngine
    [Step.call "B", Step.raiseBy "A" 5, Step.call "B"]
    (by with_unfolding_all decide) (by with_unfolding_all decide)
    (by with_unfolding_all decide) (by with_unfolding_all decide)
    (by with_unfolding_all decide) (by with_unfolding_all decide)
    takeOneEval_ok

end ChipConservation

end HomeGame
